import Mathlib

/-!
The to-do list of `todo.c` (taskman).

A shallow embedding of `src/todo.c` and theorems about it.

Conventions of the embedding.

* A C string is a `List Char`: the characters before the terminating NUL.  What `fgets`
  leaves in a buffer is read as a C string through `cstr`, which stops at the first NUL.
* `int` values are `Int`; the one `int` addition of the program (`mx + 1` in `next_id`)
  wraps to 32 bits through `wrap_int`.  `size_t` values are `Nat`; the counting and the
  subtraction of `stats` are taken modulo `SIZE_MOD`.
* A file is a `List Char`; `load_tasks` reads it through `fgets` with the 384-byte line
  buffer of the source, so a longer line reaches the loop body in several parts.
* `TaskList.data` is the memory behind the pointer `list->data`, slot by slot.  Only the
  slots below `size` are tasks of the store; the slots at and above `size` hold whatever
  was left there (what `malloc` or `realloc` returned, or the stale copy a delete leaves
  behind).  `malloc` and `realloc` are taken to succeed.
* The terminal is a `Console`: the characters still to be read from `stdin`, and the
  characters printed on `stdout` so far.
* A function that may fail to return (`ensure_cap` loops for ever on a capacity of 0)
  returns an `Option`, `none` standing for divergence.
-/

namespace Todo

/-! ## Data model -/

/-- The constant `TITLE_MAX` (128): size of the title array, terminating NUL included. -/
def TITLE_MAX : Nat := 128

/-- The struct `Task`: `int id; char title[TITLE_MAX]; int done;`. -/
structure Task where
  id : Int
  title : List Char
  done : Int
deriving DecidableEq

/-- The struct `TaskList`: `Task *data; size_t size; size_t cap;`. -/
structure TaskList where
  data : Nat → Task
  size : Nat
  cap : Nat

/-- The tasks of the store: the slots `data[0] .. data[size-1]`, in order. -/
def TaskList.tasks (list : TaskList) : List Task :=
  (List.range list.size).map list.data

/-- Terminal state: pending input and the output printed so far. -/
structure Console where
  stdin : List Char
  stdout : List Char
deriving DecidableEq

/-- Output by `printf` of an already formatted text. -/
def Console.printf (con : Console) (s : List Char) : Console :=
  { con with stdout := con.stdout ++ s }

/-! ## Integers and their text -/

/-- Conversion to `int` (32 bits, two's complement). -/
def wrap_int (x : Int) : Int := (x + 2147483648) % 4294967296 - 2147483648

/-- The character of a decimal digit. -/
def digit_char (d : Nat) : Char := Char.ofNat (48 + d)

/-- The value of a decimal digit character. -/
def digit_val (c : Char) : Nat := c.toNat - 48

/-- Decimal digits of a natural number, most significant first, pushed in front of `acc`. -/
def fmt_u_aux : Nat → Nat → List Char → List Char
  | 0, _, acc => acc
  | fuel + 1, n, acc =>
    if n < 10 then digit_char n :: acc
    else fmt_u_aux fuel (n / 10) (digit_char (n % 10) :: acc)

/-- Decimal text of a natural number (`%u`, `%zu`). -/
def fmt_u (n : Nat) : List Char := fmt_u_aux (n + 1) n []

/-- Decimal text of an integer (`%d`). -/
def fmt_d (i : Int) : List Char :=
  if i < 0 then '-' :: fmt_u i.natAbs else fmt_u i.natAbs

/-- The test `isspace` in the C locale. -/
def isspace (c : Char) : Bool :=
  c == ' ' || c == '\t' || c == '\n' || c == '\x0b' || c == '\x0c' || c == '\r'

/-- The test `isdigit`. -/
def isdigit (c : Char) : Bool := decide (48 ≤ c.toNat) && decide (c.toNat ≤ 57)

/-- The constant `LONG_MAX` of an LP64 platform. -/
def LONG_MAX : Int := 9223372036854775807

/-- The constant `LONG_MIN` of an LP64 platform. -/
def LONG_MIN : Int := -9223372036854775808

/-- The call `strtol(s, &end, 10)`: the value returned and the offset `end - s`.  White space is
skipped, then an optional sign, then the longest run of digits is converted; a value out
of the range of `long` is replaced by `LONG_MIN` or `LONG_MAX`.  Without a digit nothing
is converted: the value is 0 and `end = s`. -/
def strtol (s : List Char) : Int × Nat :=
  let body := s.dropWhile isspace
  let neg := body.head? == some '-'
  let signed := neg || body.head? == some '+'
  let rest := if signed then body.drop 1 else body
  let ds := rest.takeWhile isdigit
  if ds = [] then (0, 0)
  else
    let mag : Int := ds.foldl (fun acc c => acc * 10 + (digit_val c : Int)) 0
    let v := if neg then -mag else mag
    let v := if v < LONG_MIN then LONG_MIN else if v > LONG_MAX then LONG_MAX else v
    (v, (s.length - rest.length) + ds.length)

/-- The function `parse_int`. -/
def parse_int (s : List Char) : Int :=
  let r := strtol s
  if r.2 = 0 then 0
  else
    let v := if r.1 < -2147483648 then -2147483648 else r.1
    let v := if v > 2147483647 then 2147483647 else v
    wrap_int v

/-! ## Strings and streams -/

/-- A buffer read as a C string: the characters before the first NUL. -/
def cstr (buf : List Char) : List Char := buf.takeWhile (fun c => c != '\x00')

/-- What one `fgets` call moves from a stream into its buffer: at most `k` characters,
stopping after a newline.  Returns the characters read and the rest of the stream. -/
def fgets_read : Nat → List Char → List Char × List Char
  | 0, s => ([], s)
  | _ + 1, [] => ([], [])
  | k + 1, c :: s =>
    if c = '\n' then ([c], s)
    else (c :: (fgets_read k s).1, (fgets_read k s).2)

/-- The call `fgets(buf, n, stream)`: `none` is the `NULL` returned at end of file. -/
def fgets (n : Nat) (stream : List Char) : Option (List Char × List Char) :=
  if stream = [] then none else some (fgets_read (n - 1) stream)

/-- The function `rstrip_newline`: removes the trailing `\n` and `\r` characters. -/
def rstrip_newline (s : List Char) : List Char :=
  (s.reverse.dropWhile (fun c => c == '\n' || c == '\r')).reverse

/-- The function `sanitize_title`: every comma becomes a semicolon. -/
def sanitize_title (s : List Char) : List Char :=
  s.map (fun c => if c = ',' then ';' else c)

/-- One `strtok` call with the delimiters `delim` on the text `s` still to be scanned:
leading delimiters are skipped; `none` (`NULL`) when nothing is left; otherwise the token
up to the next delimiter, and the text after that delimiter for the next call. -/
def strtok (delim : List Char) (s : List Char) : Option (List Char × List Char) :=
  let s1 := s.dropWhile (fun c => delim.contains c)
  if s1 = [] then none
  else some (s1.takeWhile (fun c => !delim.contains c),
             (s1.dropWhile (fun c => !delim.contains c)).drop 1)

/-! ## The store -/

/-- The function `init_list`: an empty store on a block of 8 slots; `mem` is the content of the block
`malloc` returned, which is indeterminate. -/
def init_list (mem : Nat → Task) : TaskList :=
  { data := mem, size := 0, cap := 8 }

/-- The loop `while (list->cap < need) list->cap *= 2;`, `none` when it does not end
within `fuel` iterations. -/
def grow_cap (need : Nat) : Nat → Nat → Option Nat
  | 0, cap => if cap < need then none else some cap
  | fuel + 1, cap => if cap < need then grow_cap need fuel (cap * 2) else some cap

/-- The function `ensure_cap`.  `realloc` keeps the slots below the old capacity; the slots it adds
are indeterminate: they are the values `data` has there, which nothing has written. -/
def ensure_cap (list : TaskList) (need : Nat) : Option TaskList :=
  if need ≤ list.cap then some list
  else (grow_cap need need list.cap).map (fun c => { list with cap := c })

/-- The function `next_id`: the loop runs over the slots below `list.size`. -/
def next_id (list : TaskList) : Int :=
  let mx := (List.range list.size).foldl
    (fun mx i => if (list.data i).id > mx then (list.data i).id else mx) (0 : Int)
  wrap_int (mx + 1)

/-- Body of the `while` loop of `load_tasks` for one buffer `raw` filled by `fgets`. -/
def load_line (list : TaskList) (raw : List Char) : Option TaskList :=
  let line := rstrip_newline (cstr raw)
  if line = [] then some list
  else
    match strtok [','] line with
    | none => some list
    | some (id, r1) =>
      match strtok [','] r1 with
      | none => some list
      | some (title, r2) =>
        match strtok [','] r2 with
        | none => some list
        | some (done, _) =>
          match ensure_cap list (list.size + 1) with
          | none => none
          | some list =>
            let t : Task :=
              { id := parse_int id
                title := title.take (TITLE_MAX - 1)
                done := if parse_int done ≠ 0 then 1 else 0 }
            some { list with data := Function.update list.data list.size t
                             size := list.size + 1 }

/-- The loop `while (fgets(line, sizeof(line), f)) ...` of `load_tasks`, `sizeof(line)`
being `256 + TITLE_MAX`; `none` when `fuel` iterations do not reach the end of file. -/
def load_loop : Nat → TaskList → List Char → Option TaskList
  | 0, _, _ => none
  | fuel + 1, list, f =>
    match fgets (256 + TITLE_MAX) f with
    | none => some list
    | some (raw, rest) =>
      match load_line list raw with
      | none => none
      | some list => load_loop fuel list rest

/-- The function `load_tasks`: `file` is the content of the file at `path`, `none` when `fopen` fails. -/
def load_tasks (list : TaskList) (file : Option (List Char)) : Option TaskList :=
  match file with
  | none => some list
  | some f => load_loop (f.length + 1) list f

/-- The line `fprintf(f, "%d,%s,%d\n", id, title, done)` writes for one task. -/
def save_line (t : Task) : List Char :=
  fmt_d t.id ++ [','] ++ t.title ++ [','] ++ fmt_d t.done ++ ['\n']

/-- The function `save_tasks`: the new content of the file, or the message of `die` when the file
cannot be opened for writing (`can_open = false`). -/
def save_tasks (list : TaskList) (can_open : Bool) : Except (List Char) (List Char) :=
  if can_open then
    .ok ((List.range list.size).foldl (fun out i => out ++ save_line (list.data i)) [])
  else .error "Error: Cannot open tasks file for writing\n".toList

/-- The function `add_task`. -/
def add_task (list : TaskList) (con : Console) : Option (TaskList × Console) :=
  let con := con.printf "Enter task title: ".toList
  match fgets TITLE_MAX con.stdin with
  | none => some (list, con)
  | some (raw, rest) =>
    let con := { con with stdin := rest }
    let buf := rstrip_newline (cstr raw)
    if buf = [] then some (list, con.printf "Title cannot be empty.\n".toList)
    else
      let buf := sanitize_title buf
      match ensure_cap list (list.size + 1) with
      | none => none
      | some list =>
        let idx := list.size
        let list := { list with size := list.size + 1 }
        let id := next_id list
        let t : Task := { id := id, title := buf.take (TITLE_MAX - 1), done := 0 }
        some ({ list with data := Function.update list.data idx t },
              con.printf ("Added task #".toList ++ fmt_d id ++ ".\n".toList))

/-- The function `find_by_id`: the index of the first slot below `size` with the given id. -/
def find_by_id (list : TaskList) (id : Int) : Option Nat :=
  (List.range list.size).find? (fun i => (list.data i).id == id)

/-- The function `mark_done`. -/
def mark_done (list : TaskList) (con : Console) : TaskList × Console :=
  let con := con.printf "Enter task ID to mark done: ".toList
  match fgets 32 con.stdin with
  | none => (list, con)
  | some (raw, rest) =>
    let con := { con with stdin := rest }
    let id := parse_int (cstr raw)
    match find_by_id list id with
    | none => (list, con.printf ("No task with ID ".toList ++ fmt_d id ++ ".\n".toList))
    | some i =>
      ({ list with data := Function.update list.data i { list.data i with done := 1 } },
       con.printf ("Marked task #".toList ++ fmt_d id ++ " as done.\n".toList))

/-- The loop `for (j = idx + 1; j < size; ++j) data[j-1] = data[j];` of `delete_task`,
`n` being the number of iterations left. -/
def shift_down (data : Nat → Task) (j : Nat) : Nat → Nat → Task
  | 0 => data
  | n + 1 => shift_down (Function.update data (j - 1) (data j)) (j + 1) n

/-- The function `delete_task`. -/
def delete_task (list : TaskList) (con : Console) : TaskList × Console :=
  let con := con.printf "Enter task ID to delete: ".toList
  match fgets 32 con.stdin with
  | none => (list, con)
  | some (raw, rest) =>
    let con := { con with stdin := rest }
    let id := parse_int (cstr raw)
    let idx := ((List.range list.size).find? (fun i => (list.data i).id == id)).getD list.size
    if idx = list.size then
      (list, con.printf ("No task with ID ".toList ++ fmt_d id ++ ".\n".toList))
    else
      ({ list with data := shift_down list.data (idx + 1) (list.size - (idx + 1))
                   size := list.size - 1 },
       con.printf ("Deleted task #".toList ++ fmt_d id ++ ".\n".toList))

/-- The conversion `%-Nd` / `%-Ns` of `printf`: the text, padded with spaces on the right
up to the width `w`. -/
def pad_right (w : Nat) (s : List Char) : List Char :=
  s ++ List.replicate (w - s.length) ' '

/-- The row `printf("%-4d %-7s %s\n", t->id, t->done ? "[x]" : "[ ]", t->title)` prints. -/
def task_row (t : Task) : List Char :=
  pad_right 4 (fmt_d t.id) ++ [' '] ++
    pad_right 7 (if t.done ≠ 0 then "[x]".toList else "[ ]".toList) ++ [' '] ++
    t.title ++ ['\n']

/-- The test `strstr(hay, needle) != NULL`: `needle` occurs in `hay` at some position. -/
def strstr : List Char → List Char → Bool
  | [], needle => needle.isEmpty
  | c :: hay, needle => needle.isPrefixOf (c :: hay) || strstr hay needle

/-- The function `search_tasks`.  The store is behind a `const` pointer and is not
written; the result is the terminal.  The pair carried by the loop is the terminal and
the flag `found`. -/
def search_tasks (list : TaskList) (con : Console) : Console :=
  let con := con.printf "Enter search text: ".toList
  match fgets TITLE_MAX con.stdin with
  | none => con
  | some (raw, rest) =>
    let con := { con with stdin := rest }
    let q := rstrip_newline (cstr raw)
    if q = [] then con.printf "Search text cannot be empty.\n".toList
    else
      let con := con.printf ("\nResults for '".toList ++ q ++ "':\n".toList)
      let r := (List.range list.size).foldl
        (fun (acc : Console × Int) i =>
          if strstr (list.data i).title q then (acc.1.printf (task_row (list.data i)), 1)
          else acc)
        (con, 0)
      if r.2 = 0 then r.1.printf "No matching tasks.\n".toList else r.1

/-- The number of values of `size_t` (64 bits). -/
def SIZE_MOD : Nat := 18446744073709551616

/-- The three numbers `stats` hands to `printf`: `list->size`, the counter `done` after
the loop, and `list->size - done`, in `size_t` arithmetic. -/
def stats_counts (list : TaskList) : Nat × Nat × Nat :=
  let done := (List.range list.size).foldl
    (fun d i => if (list.data i).done ≠ 0 then (d + 1) % SIZE_MOD else d) 0
  (list.size, done, (list.size + SIZE_MOD - done) % SIZE_MOD)

/-- The function `stats`. -/
def stats (list : TaskList) (con : Console) : Console :=
  con.printf ("Total: ".toList ++ fmt_u (stats_counts list).1 ++
    ", Done: ".toList ++ fmt_u (stats_counts list).2.1 ++
    ", Pending: ".toList ++ fmt_u (stats_counts list).2.2 ++ "\n".toList)

/-! ## Sample values -/

/-- A block of memory filled with zero bytes. -/
def zero_mem : Nat → Task := fun _ => { id := 0, title := [], done := 0 }

/-- A console with pending input `s` and nothing printed. -/
def console_of (s : String) : Console := { stdin := s.toList, stdout := [] }

/-- A store on a block of 8 slots whose first slots hold `ts`, the other slots being zero. -/
def store_of (ts : List Task) : TaskList :=
  { data := fun i => ts.getD i { id := 0, title := [], done := 0 }, size := ts.length, cap := 8 }

/-- A task that is not done. -/
def todo (id : Int) (title : String) : Task := { id := id, title := title.toList, done := 0 }

/-! ## Auxiliary definitions -/

/-- The largest of 0 and the ids: the value of `mx` once the loop of `next_id` has run
over slots with these ids. -/
def max_id (ids : List Int) : Int := ids.foldl (fun mx i => if i > mx then i else mx) 0

/-- The tasks that `save_tasks` writes so that `load_tasks` reads them back: the title is
a C string (no NUL) that is not empty, fits the title array, and holds no comma and no
newline; the done flag is 0 or 1; the id is an `int`. -/
def valid_task (t : Task) : Prop :=
  t.title ≠ [] ∧ t.title.length ≤ 127 ∧ ',' ∉ t.title ∧ '\n' ∉ t.title ∧ '\x00' ∉ t.title ∧
  (t.done = 0 ∨ t.done = 1) ∧ -2147483648 ≤ t.id ∧ t.id ≤ 2147483647

instance (t : Task) : Decidable (valid_task t) := by
  unfold valid_task
  infer_instance

/-- Runs `add_task` once on each console of the list, in order, on the store so far. -/
def add_tasks (list : TaskList) : List Console → Option TaskList
  | [] => some list
  | con :: cons =>
    match add_task list con with
    | none => none
    | some r => add_tasks r.1 cons

/-- A block of memory that is not zero-filled: every slot reads as a task with id 41. -/
def junk_mem : Nat → Task := fun _ => { id := 41, title := [], done := 0 }

/-- The number a run of decimal digits stands for, least significant digit first. -/
def decimal_value (ds : List Char) : Nat :=
  ds.reverse.foldr (fun c v => digit_val c + 10 * v) 0

/-- The saturating parse as the specification words it: after optional white space and an
optional sign, the longest run of decimal digits is read, whatever its length; without a
digit the result is 0; otherwise the number, negated after a minus sign, is clamped to
the range from -2147483648 to 2147483647. -/
def saturating_parse_spec (s : List Char) : Int :=
  match s.dropWhile isspace with
  | '-' :: r =>
    if r.takeWhile isdigit = [] then 0
    else max (-2147483648) (min 2147483647 (-(decimal_value (r.takeWhile isdigit) : Int)))
  | '+' :: r =>
    if r.takeWhile isdigit = [] then 0
    else max (-2147483648) (min 2147483647 (decimal_value (r.takeWhile isdigit) : Int))
  | body =>
    if body.takeWhile isdigit = [] then 0
    else max (-2147483648) (min 2147483647 (decimal_value (body.takeWhile isdigit) : Int))

/-- A text made of complete lines: it is empty or ends with a newline. -/
def newline_terminated (f : List Char) : Prop := f = [] ∨ ∃ g, f = g ++ ['\n']

/-- The comma-separated fields of a line, empty fields included: one more than it has
commas. -/
def split_commas : List Char → List (List Char)
  | [] => [[]]
  | c :: s =>
    if c = ',' then [] :: split_commas s
    else
      match split_commas s with
      | [] => [[c]]
      | p :: ps => (c :: p) :: ps

/-- The non-empty comma-separated pieces of a line, in order. -/
def pieces (line : List Char) : List (List Char) :=
  (split_commas line).filter (fun p => !p.isEmpty)

/-- The lines of a text: the lines that end with a newline (without that newline), and
what follows the last newline. -/
def split_lines : List Char → List (List Char) × List Char
  | [] => ([], [])
  | c :: s =>
    if c = '\n' then ([] :: (split_lines s).1, (split_lines s).2)
    else
      match (split_lines s).1 with
      | [] => ([], c :: (split_lines s).2)
      | l :: ls => ((c :: l) :: ls, (split_lines s).2)

/-- The text whose lines are `ls`, each followed by a newline. -/
def unlines (ls : List (List Char)) : List Char :=
  (ls.map (fun l => l ++ ['\n'])).flatten

/-- A line has at least three comma-separated fields: it has at least two commas. -/
def three_fields (l : List Char) : Bool := decide (2 ≤ l.count ',')

/-- The text without its lines (blank lines among them) that have fewer than three
comma-separated fields. -/
def drop_short_lines (content : List Char) : List Char :=
  unlines ((split_lines content).1.filter three_fields) ++
    (if three_fields (split_lines content).2 then (split_lines content).2 else [])

/-- The stores the program can build: the empty store of `init_list`, and every store
returned by `load_tasks`, `add_task`, `mark_done` or `delete_task` on such a store. -/
inductive Reachable : TaskList → Prop
  | init (mem : Nat → Task) : Reachable (init_list mem)
  | load (list list2 : TaskList) (file : Option (List Char)) :
      Reachable list → load_tasks list file = some list2 → Reachable list2
  | add (list list2 : TaskList) (con con2 : Console) :
      Reachable list → add_task list con = some (list2, con2) → Reachable list2
  | mark (list : TaskList) (con : Console) :
      Reachable list → Reachable (mark_done list con).1
  | delete (list : TaskList) (con : Console) :
      Reachable list → Reachable (delete_task list con).1

/-- A file line of the form id,title,done whose title has 400 characters: the id `1`, a
comma, 400 times `a`, a comma, the done flag `1`. -/
def long_line : List Char := "1,".toList ++ List.replicate 400 'a' ++ ",1".toList

/-! ## Slots and scans -/

theorem find_range_none (p : Nat → Bool) (n : Nat) :
    (List.range n).find? p = none ↔ ∀ j, j < n → p j = false := by
  simp [List.find?_eq_none, List.mem_range]

theorem find_range_some (p : Nat → Bool) (n i : Nat) :
    (List.range n).find? p = some i ↔ i < n ∧ p i = true ∧ ∀ j, j < i → p j = false := by
  induction n generalizing i with
  | zero => simp
  | succ n ih =>
    rw [List.range_succ, List.find?_append]
    cases hf : (List.range n).find? p with
    | some k =>
      obtain ⟨hkn, hpk, hfirst⟩ := (ih k).mp hf
      simp only [Option.or_some, Option.some.injEq]
      constructor
      · rintro rfl
        exact ⟨by omega, hpk, hfirst⟩
      · rintro ⟨_, hpi, hfi⟩
        rcases Nat.lt_trichotomy k i with h | h | h
        · have := hfi k h
          simp [hpk] at this
        · exact h
        · have := hfirst i h
          simp [hpi] at this
    | none =>
      have hnone := (find_range_none p n).mp hf
      simp only [Option.none_or]
      by_cases hpn : p n = true
      · simp only [List.find?_cons_of_pos _ hpn, Option.some.injEq]
        constructor
        · rintro rfl
          exact ⟨by omega, hpn, hnone⟩
        · rintro ⟨hin, hpi, _⟩
          rcases Nat.lt_or_ge i n with h | h
          · have := hnone i h
            simp [hpi] at this
          · omega
      · have hpn2 : p n = false := by simpa using hpn
        simp only [List.find?_cons_of_neg _ hpn, List.find?_nil]
        constructor
        · intro h
          cases h
        · rintro ⟨hin, hpi, _⟩
          rcases Nat.lt_or_ge i n with h | h
          · have := hnone i h
            simp [hpi] at this
          · have : i = n := by omega
            subst this
            simp [hpn2] at hpi

/-- Removing the first element that satisfies `q` from the first `n` values of `f`. -/
theorem eraseP_map_range {α : Type} (f : Nat → α) (q : α → Bool) (n idx : Nat)
    (hidx : idx < n) (hq : q (f idx) = true) (hfirst : ∀ j, j < idx → q (f j) = false) :
    ((List.range n).map f).eraseP q
      = (List.range (n - 1)).map (fun k => if k < idx then f k else f (k + 1)) := by
  induction n with
  | zero => omega
  | succ n ih =>
    rw [List.range_succ, List.map_append]
    rcases Nat.lt_or_ge idx n with h | h
    · have hmem : f idx ∈ (List.range n).map f :=
        List.mem_map.mpr ⟨idx, List.mem_range.mpr h, rfl⟩
      rw [List.eraseP_append_left hq _ hmem, ih h]
      obtain ⟨m, rfl⟩ : ∃ m, n = m + 1 := ⟨n - 1, by omega⟩
      simp only [Nat.add_sub_cancel, List.map_cons, List.map_nil]
      rw [List.range_succ, List.map_append]
      have : ¬ m < idx := by omega
      simp [this]
    · have hidx2 : idx = n := by omega
      subst hidx2
      have hno : ∀ b ∈ (List.range idx).map f, ¬ q b = true := by
        intro b hb
        obtain ⟨j, hj, rfl⟩ := List.mem_map.mp hb
        simp [hfirst j (List.mem_range.mp hj)]
      rw [List.eraseP_append_right _ hno]
      simp only [List.map_cons, List.map_nil, List.eraseP_cons_of_pos hq, List.append_nil,
        Nat.add_sub_cancel]
      apply List.map_congr_left
      intro k hk
      simp [List.mem_range.mp hk]

/-- What the copying loop of `delete_task` leaves in each slot. -/
theorem shift_down_apply (data : Nat → Task) (idx n k : Nat) :
    shift_down data (idx + 1) n k
      = if idx ≤ k ∧ k < idx + n then data (k + 1) else data k := by
  induction n generalizing data idx with
  | zero =>
    have : ¬ (idx ≤ k ∧ k < idx + 0) := by omega
    rw [shift_down, if_neg this]
  | succ n ih =>
    rw [shift_down, ih]
    have e : idx + 1 - 1 = idx := rfl
    rw [e]
    by_cases h1 : idx + 1 ≤ k ∧ k < idx + 1 + n
    · have h2 : idx ≤ k ∧ k < idx + (n + 1) := by omega
      have h3 : k + 1 ≠ idx := by omega
      simp [h1, h2, Function.update_noteq h3]
    · by_cases h4 : k = idx
      · subst h4
        have h2 : k ≤ k ∧ k < k + (n + 1) := by omega
        simp [h1, h2]
      · have h2 : ¬ (idx ≤ k ∧ k < idx + (n + 1)) := by omega
        simp [h1, h2, Function.update_noteq h4]

theorem mem_ids_iff (list : TaskList) (id : Int) :
    id ∈ list.tasks.map Task.id ↔ ∃ j, j < list.size ∧ (list.data j).id = id := by
  simp only [TaskList.tasks, List.map_map, List.mem_map, List.mem_range, Function.comp]

theorem scan_none_of_absent (list : TaskList) (id : Int) (habs : id ∉ list.tasks.map Task.id) :
    (List.range list.size).find? (fun i => (list.data i).id == id) = none := by
  rw [find_range_none]
  intro j hj
  by_contra hne
  exact habs ((mem_ids_iff list id).mpr ⟨j, hj, by simpa using hne⟩)

theorem scan_some_of_present (list : TaskList) (id : Int) (hmem : id ∈ list.tasks.map Task.id) :
    ∃ i, (List.range list.size).find? (fun i => (list.data i).id == id) = some i ∧
      i < list.size ∧ (list.data i).id = id ∧ ∀ j, j < i → (list.data j).id ≠ id := by
  cases hf : (List.range list.size).find? (fun i => (list.data i).id == id) with
  | none =>
    exfalso
    rw [find_range_none] at hf
    obtain ⟨j, hj, hjid⟩ := (mem_ids_iff list id).mp hmem
    have := hf j hj
    simp [hjid] at this
  | some i =>
    obtain ⟨h1, h2, h3⟩ := (find_range_some _ _ _).mp hf
    refine ⟨i, rfl, h1, by simpa using h2, ?_⟩
    intro j hj
    simpa using h3 j hj

theorem next_id_eq (list : TaskList) :
    next_id list = wrap_int (max_id (list.tasks.map Task.id) + 1) := by
  simp only [next_id, max_id, TaskList.tasks, List.map_map, List.foldl_map, Function.comp]

theorem max_fold_append (l : List Int) (x a : Int) :
    (l ++ [x]).foldl (fun mx i => if i > mx then i else mx) a
      = if x > l.foldl (fun mx i => if i > mx then i else mx) a then x
        else l.foldl (fun mx i => if i > mx then i else mx) a := by
  simp [List.foldl_append]

theorem max_fold_ge_init (l : List Int) (a : Int) :
    a ≤ l.foldl (fun mx i => if i > mx then i else mx) a := by
  induction l generalizing a with
  | nil => simp
  | cons x l ih =>
    simp only [List.foldl_cons]
    split
    · exact le_trans (by omega) (ih x)
    · exact ih a

theorem max_fold_ge_mem (l : List Int) (a x : Int) (hx : x ∈ l) :
    x ≤ l.foldl (fun mx i => if i > mx then i else mx) a := by
  induction l generalizing a with
  | nil => cases hx
  | cons y l ih =>
    simp only [List.foldl_cons]
    rcases List.mem_cons.mp hx with rfl | h
    · split
      · exact max_fold_ge_init l x
      · exact le_trans (by omega) (max_fold_ge_init l a)
    · exact ih _ h

theorem max_fold_mem_or_init (l : List Int) (a : Int) :
    l.foldl (fun mx i => if i > mx then i else mx) a = a ∨
      l.foldl (fun mx i => if i > mx then i else mx) a ∈ l := by
  induction l generalizing a with
  | nil => simp
  | cons y l ih =>
    simp only [List.foldl_cons]
    split
    · rcases ih y with h | h
      · right; rw [h]; exact List.mem_cons_self _ _
      · right; exact List.mem_cons_of_mem _ h
    · rcases ih a with h | h
      · left; exact h
      · right; exact List.mem_cons_of_mem _ h

theorem wrap_int_of_range (x : Int) (h1 : -2147483648 ≤ x) (h2 : x ≤ 2147483647) :
    wrap_int x = x := by
  unfold wrap_int
  omega

theorem grow_cap_some (need fuel cap : Nat) (hcap : 0 < cap) (hfuel : need ≤ cap + fuel) :
    ∃ c, grow_cap need fuel cap = some c ∧ cap ≤ c ∧ need ≤ c := by
  induction fuel generalizing cap with
  | zero =>
    have : ¬ cap < need := by omega
    exact ⟨cap, by simp [grow_cap, this], le_refl _, by omega⟩
  | succ fuel ih =>
    by_cases h : cap < need
    · obtain ⟨c, hc, h1, h2⟩ := ih (cap * 2) (by omega) (by omega)
      exact ⟨c, by simp [grow_cap, h, hc], by omega, h2⟩
    · exact ⟨cap, by simp [grow_cap, h], le_refl _, by omega⟩

/-- On a store of positive capacity `ensure_cap` returns, and changes the capacity only. -/
theorem ensure_cap_some (list : TaskList) (need : Nat) (hcap : 0 < list.cap) :
    ∃ c, ensure_cap list need = some { list with cap := c } ∧ list.cap ≤ c ∧ need ≤ c := by
  by_cases h : need ≤ list.cap
  · exact ⟨list.cap, by simp [ensure_cap, h], le_refl _, h⟩
  · obtain ⟨c, hc, h1, h2⟩ := grow_cap_some need need list.cap hcap (by omega)
    exact ⟨c, by simp [ensure_cap, h, hc], h1, h2⟩

theorem fgets_read_length (k : Nat) (s : List Char) : (fgets_read k s).1.length ≤ k := by
  induction k generalizing s with
  | zero => simp [fgets_read]
  | succ k ih =>
    cases s with
    | nil => simp [fgets_read]
    | cons c s =>
      by_cases h : c = '\n'
      · simp [fgets_read, h]
      · simp only [fgets_read, if_neg h, List.length_cons]
        have := ih s
        omega

theorem fgets_read_append (k : Nat) (s : List Char) :
    (fgets_read k s).1 ++ (fgets_read k s).2 = s := by
  induction k generalizing s with
  | zero => simp [fgets_read]
  | succ k ih =>
    cases s with
    | nil => simp [fgets_read]
    | cons c s =>
      by_cases h : c = '\n'
      · simp [fgets_read, h]
      · simp only [fgets_read, if_neg h, List.cons_append, ih s]

theorem fgets_some (n : Nat) (s raw rest : List Char) (h : fgets n s = some (raw, rest)) :
    raw ++ rest = s ∧ raw.length ≤ n - 1 := by
  unfold fgets at h
  split at h
  · cases h
  · simp only [Option.some.injEq] at h
    have h1 := fgets_read_append (n - 1) s
    have h2 := fgets_read_length (n - 1) s
    rw [h] at h1 h2
    exact ⟨h1, h2⟩

theorem cstr_length (buf : List Char) : (cstr buf).length ≤ buf.length := by
  unfold cstr
  exact (List.takeWhile_sublist _).length_le

theorem rstrip_newline_length (s : List Char) : (rstrip_newline s).length ≤ s.length := by
  unfold rstrip_newline
  rw [List.length_reverse]
  exact le_trans (List.dropWhile_sublist _).length_le (by simp)

/-- The tasks of a store after a write into the slot at index `size` and `size++`. -/
theorem tasks_push (data : Nat → Task) (size cap : Nat) (t : Task) :
    TaskList.tasks { data := Function.update data size t, size := size + 1, cap := cap }
      = TaskList.tasks { data := data, size := size, cap := cap } ++ [t] := by
  simp only [TaskList.tasks, List.range_succ, List.map_append, List.map_cons, List.map_nil,
    Function.update_same]
  congr 1
  apply List.map_congr_left
  intro k hk
  have : k ≠ size := by have := List.mem_range.mp hk; omega
  exact Function.update_noteq this _ _

/-- What `add_task` does with an accepted title, on a store of positive capacity. -/
theorem add_task_accepted (list : TaskList) (con : Console) (raw rest : List Char)
    (hcap : 0 < list.cap) (hread : fgets TITLE_MAX con.stdin = some (raw, rest))
    (hne : rstrip_newline (cstr raw) ≠ []) :
    ∃ c, list.cap ≤ c ∧
      add_task list con = some
        ({ data := Function.update list.data list.size
              { id := wrap_int (max_id (list.tasks.map Task.id ++ [(list.data list.size).id]) + 1)
                title := sanitize_title (rstrip_newline (cstr raw))
                done := 0 }
           size := list.size + 1
           cap := c },
         { stdin := rest
           stdout := con.stdout ++ "Enter task title: ".toList ++
             ("Added task #".toList ++
               fmt_d (wrap_int
                 (max_id (list.tasks.map Task.id ++ [(list.data list.size).id]) + 1)) ++
               ".\n".toList) }) := by
  obtain ⟨c, hc, hle, _⟩ := ensure_cap_some list (list.size + 1) hcap
  refine ⟨c, hle, ?_⟩
  have hlen : (sanitize_title (rstrip_newline (cstr raw))).length ≤ TITLE_MAX - 1 := by
    have h1 := (fgets_some _ _ _ _ hread).2
    have h2 := cstr_length raw
    have h3 := rstrip_newline_length (cstr raw)
    simp only [sanitize_title, List.length_map]
    omega
  have hid : next_id { data := list.data, size := list.size + 1, cap := c }
      = wrap_int (max_id (list.tasks.map Task.id ++ [(list.data list.size).id]) + 1) := by
    rw [next_id_eq]
    simp [TaskList.tasks, List.range_succ]
  simp only [add_task, Console.printf, hread, hne, if_false, hc, hid, List.take_of_length_le hlen]

/-- What `delete_task` does with an id that is present: `i` is the first slot with it. -/
theorem delete_task_found (list : TaskList) (con : Console) (raw rest : List Char)
    (id : Int) (hread : fgets 32 con.stdin = some (raw, rest))
    (hid : parse_int (cstr raw) = id) (hmem : id ∈ list.tasks.map Task.id) :
    ∃ i, i < list.size ∧ (list.data i).id = id ∧ (∀ j, j < i → (list.data j).id ≠ id) ∧
      delete_task list con =
        ({ data := shift_down list.data (i + 1) (list.size - (i + 1))
           size := list.size - 1
           cap := list.cap },
         { stdin := rest
           stdout := con.stdout ++ "Enter task ID to delete: ".toList ++
             ("Deleted task #".toList ++ fmt_d id ++ ".\n".toList) }) := by
  obtain ⟨i, hfind, hi, hiid, hfirst⟩ := scan_some_of_present list id hmem
  have hne : ¬ i = list.size := by omega
  refine ⟨i, hi, hiid, hfirst, ?_⟩
  simp only [delete_task, Console.printf, hread, hid, hfind, Option.getD_some, if_neg hne]

theorem parse_int_of_no_conversion (s : List Char) (h : (strtol s).2 = 0) : parse_int s = 0 := by
  simp [parse_int, h]

/-- The tasks left by `delete_task` when the id is present. -/
theorem delete_task_tasks (list : TaskList) (con : Console) (raw rest : List Char)
    (id : Int) (hread : fgets 32 con.stdin = some (raw, rest))
    (hid : parse_int (cstr raw) = id) (hmem : id ∈ list.tasks.map Task.id) :
    (delete_task list con).1.tasks = list.tasks.eraseP (fun t => t.id == id) := by
  obtain ⟨i, hi, hiid, hfirst, hrun⟩ := delete_task_found list con raw rest id hread hid hmem
  rw [hrun]
  simp only [TaskList.tasks]
  rw [eraseP_map_range list.data (fun t => t.id == id) list.size i hi (by simpa using hiid)
    (fun j hj => by simpa using hfirst j hj)]
  apply List.map_congr_left
  intro k hk
  have hk2 := List.mem_range.mp hk
  rw [shift_down_apply]
  by_cases hki : k < i
  · have : ¬ (i ≤ k ∧ k < i + (list.size - (i + 1))) := by omega
    simp [hki, this]
  · have : i ≤ k ∧ k < i + (list.size - (i + 1)) := by omega
    simp [hki, this]

/-- What `mark_done` and `delete_task` do with an id that no task carries. -/
theorem absent_id_run (list : TaskList) (con : Console)
    (raw rest : List Char) (id : Int) (hread : fgets 32 con.stdin = some (raw, rest))
    (hid : parse_int (cstr raw) = id) (habs : id ∉ list.tasks.map Task.id) :
    mark_done list con =
      (list, { stdin := rest
               stdout := con.stdout ++ "Enter task ID to mark done: ".toList ++
                 ("No task with ID ".toList ++ fmt_d id ++ ".\n".toList) }) ∧
    delete_task list con =
      (list, { stdin := rest
               stdout := con.stdout ++ "Enter task ID to delete: ".toList ++
                 ("No task with ID ".toList ++ fmt_d id ++ ".\n".toList) }) := by
  have hnone := scan_none_of_absent list id habs
  constructor
  · simp only [mark_done, Console.printf, hread, hid, find_by_id, hnone]
  · simp only [delete_task, Console.printf, hread, hid, hnone, Option.getD_none, if_true]

/-! ## Decimal text -/

theorem digit_char_spec (d : Nat) (h : d < 10) :
    isdigit (digit_char d) = true ∧ digit_val (digit_char d) = d := by
  interval_cases d <;> decide

theorem fmt_u_aux_acc (fuel n : Nat) (acc : List Char) :
    fmt_u_aux fuel n acc = fmt_u_aux fuel n [] ++ acc := by
  induction fuel generalizing n acc with
  | zero => simp [fmt_u_aux]
  | succ fuel ih =>
    by_cases h : n < 10
    · simp [fmt_u_aux, h]
    · simp only [fmt_u_aux, if_neg h]
      rw [ih (n / 10) (digit_char (n % 10) :: acc), ih (n / 10) [digit_char (n % 10)]]
      simp

theorem fmt_u_aux_fuel (fuel fuel2 n : Nat) (acc : List Char) (h1 : n < fuel) (h2 : n < fuel2) :
    fmt_u_aux fuel n acc = fmt_u_aux fuel2 n acc := by
  induction fuel generalizing fuel2 n acc with
  | zero => omega
  | succ fuel ih =>
    obtain ⟨f2, rfl⟩ : ∃ f2, fuel2 = f2 + 1 := ⟨fuel2 - 1, by omega⟩
    by_cases h : n < 10
    · simp [fmt_u_aux, h]
    · simp only [fmt_u_aux, if_neg h]
      exact ih f2 (n / 10) _ (by omega) (by omega)

theorem fmt_u_small (n : Nat) (h : n < 10) : fmt_u n = [digit_char n] := by
  simp [fmt_u, fmt_u_aux, h]

theorem fmt_u_step (n : Nat) (h : 10 ≤ n) :
    fmt_u n = fmt_u (n / 10) ++ [digit_char (n % 10)] := by
  have hn : ¬ n < 10 := by omega
  have e : fmt_u n = fmt_u_aux n (n / 10) [digit_char (n % 10)] := by
    simp only [fmt_u, fmt_u_aux, if_neg hn]
  rw [e, fmt_u_aux_acc, fmt_u_aux_fuel n (n / 10 + 1) (n / 10) [] (by omega) (by omega)]
  rfl

theorem fmt_u_ne_nil (n : Nat) : fmt_u n ≠ [] := by
  by_cases h : n < 10
  · simp [fmt_u_small n h]
  · rw [fmt_u_step n (by omega)]
    simp

theorem fmt_u_isdigit (n : Nat) : ∀ c ∈ fmt_u n, isdigit c = true := by
  induction n using Nat.strong_induction_on with
  | _ n ih =>
    by_cases h : n < 10
    · rw [fmt_u_small n h]
      intro c hc
      rw [List.mem_singleton.mp hc]
      exact (digit_char_spec n h).1
    · rw [fmt_u_step n (by omega)]
      intro c hc
      rcases List.mem_append.mp hc with hc | hc
      · exact ih (n / 10) (by omega) c hc
      · rw [List.mem_singleton.mp hc]
        exact (digit_char_spec (n % 10) (by omega)).1

theorem fmt_u_value (n : Nat) :
    (fmt_u n).foldl (fun acc c => acc * 10 + (digit_val c : Int)) 0 = (n : Int) := by
  induction n using Nat.strong_induction_on with
  | _ n ih =>
    by_cases h : n < 10
    · rw [fmt_u_small n h]
      simp [(digit_char_spec n h).2]
    · rw [fmt_u_step n (by omega), List.foldl_append, ih (n / 10) (by omega)]
      simp only [List.foldl_cons, List.foldl_nil, (digit_char_spec (n % 10) (by omega)).2]
      omega

theorem fmt_u_length (k n : Nat) (hk : 0 < k) (h : n < 10 ^ k) : (fmt_u n).length ≤ k := by
  induction k generalizing n with
  | zero => omega
  | succ k ih =>
    by_cases h10 : n < 10
    · simp [fmt_u_small n h10]
    · rw [fmt_u_step n (by omega)]
      have hk0 : 0 < k := by
        rcases Nat.eq_zero_or_pos k with h0 | h0
        · subst h0
          simp at h
          omega
        · exact h0
      have : n / 10 < 10 ^ k := by
        rw [Nat.div_lt_iff_lt_mul (by decide)]
        rw [pow_succ] at h
        exact h
      have := ih (n / 10) hk0 this
      simp only [List.length_append, List.length_singleton]
      omega

theorem isdigit_ne (c d : Char) (h : isdigit c = true) (hd : isdigit d = false) : c ≠ d := by
  rintro rfl
  simp [h] at hd

theorem isspace_of_isdigit (c : Char) (h : isdigit c = true) : isspace c = false := by
  have h1 := isdigit_ne c ' ' h (by decide)
  have h2 := isdigit_ne c '\t' h (by decide)
  have h3 := isdigit_ne c '\n' h (by decide)
  have h4 := isdigit_ne c '\x0b' h (by decide)
  have h5 := isdigit_ne c '\x0c' h (by decide)
  have h6 := isdigit_ne c '\r' h (by decide)
  simp [isspace, h1, h2, h3, h4, h5, h6]

/-- What `strtol` makes of a run of digits, with or without a minus sign in front. -/
theorem strtol_digits (ds : List Char) (hne : ds ≠ []) (hd : ∀ c ∈ ds, isdigit c = true) :
    (strtol ds).2 ≠ 0 ∧
    (strtol ds).1 =
      (if ds.foldl (fun acc c => acc * 10 + (digit_val c : Int)) 0 < LONG_MIN then LONG_MIN
       else if ds.foldl (fun acc c => acc * 10 + (digit_val c : Int)) 0 > LONG_MAX then LONG_MAX
       else ds.foldl (fun acc c => acc * 10 + (digit_val c : Int)) 0) ∧
    (strtol ('-' :: ds)).2 ≠ 0 ∧
    (strtol ('-' :: ds)).1 =
      (if -ds.foldl (fun acc c => acc * 10 + (digit_val c : Int)) 0 < LONG_MIN then LONG_MIN
       else if -ds.foldl (fun acc c => acc * 10 + (digit_val c : Int)) 0 > LONG_MAX then LONG_MAX
       else -ds.foldl (fun acc c => acc * 10 + (digit_val c : Int)) 0) := by
  obtain ⟨a, l, rfl⟩ := List.exists_cons_of_ne_nil hne
  have ha : isdigit a = true := hd a (List.mem_cons_self _ _)
  have hsp : isspace a = false := isspace_of_isdigit a ha
  have hm : a ≠ '-' := isdigit_ne a '-' ha (by decide)
  have hp : a ≠ '+' := isdigit_ne a '+' ha (by decide)
  have htake : (a :: l).takeWhile isdigit = a :: l := List.takeWhile_eq_self_iff.mpr hd
  have hdrop : (a :: l).dropWhile isspace = a :: l := by
    rw [List.dropWhile_cons_of_neg (by simp [hsp])]
  have hdrop2 : ('-' :: a :: l).dropWhile isspace = '-' :: a :: l := by
    rw [List.dropWhile_cons_of_neg (by decide)]
  refine ⟨?_, ?_, ?_, ?_⟩
  · simp [strtol, hdrop, hm, hp, htake]
  · simp [strtol, hdrop, hm, hp, htake]
  · simp [strtol, hdrop2, htake]
  · simp [strtol, hdrop2, htake]

/-- Reading back the text `%d` prints for an `int` gives that `int`. -/
theorem parse_int_fmt_d (i : Int) (h1 : -2147483648 ≤ i) (h2 : i ≤ 2147483647) :
    parse_int (fmt_d i) = i := by
  obtain ⟨ha, hb, hc, hd⟩ := strtol_digits (fmt_u i.natAbs) (fmt_u_ne_nil _) (fmt_u_isdigit _)
  rw [fmt_u_value] at hb hd
  unfold parse_int fmt_d
  by_cases hneg : i < 0
  · simp only [if_pos hneg, if_neg hc, hd, LONG_MIN, LONG_MAX]
    unfold wrap_int
    split_ifs <;> omega
  · simp only [if_neg hneg, if_neg ha, hb, LONG_MIN, LONG_MAX]
    unfold wrap_int
    split_ifs <;> omega

/-! ## Lines of the file -/

theorem fgets_read_line (k : Nat) (body rest : List Char) (hnl : '\n' ∉ body)
    (hlen : body.length < k) :
    fgets_read k (body ++ '\n' :: rest) = (body ++ ['\n'], rest) := by
  induction body generalizing k with
  | nil =>
    obtain ⟨k2, rfl⟩ : ∃ k2, k = k2 + 1 := ⟨k - 1, by simp at hlen; omega⟩
    simp [fgets_read]
  | cons c body ih =>
    obtain ⟨k2, rfl⟩ : ∃ k2, k = k2 + 1 := ⟨k - 1, by simp at hlen; omega⟩
    have hc : c ≠ '\n' := fun h => hnl (by simp [h])
    have hb : '\n' ∉ body := fun h => hnl (List.mem_cons_of_mem _ h)
    have e := ih k2 hb (by simp at hlen; omega)
    rw [List.cons_append, fgets_read, if_neg hc, e]
    rfl

theorem cstr_of_no_nul (buf : List Char) (h : '\x00' ∉ buf) : cstr buf = buf := by
  unfold cstr
  rw [List.takeWhile_eq_self_iff]
  intro c hc
  have : c ≠ '\x00' := fun e => h (e ▸ hc)
  simpa using this

theorem rstrip_newline_line (pre : List Char) (c : Char) (h1 : c ≠ '\n') (h2 : c ≠ '\r') :
    rstrip_newline (pre ++ [c] ++ ['\n']) = pre ++ [c] := by
  simp [rstrip_newline, h1, h2]

theorem strtok_token (tok rest : List Char) (hne : tok ≠ []) (hc : ',' ∉ tok) :
    strtok [','] (tok ++ ',' :: rest) = some (tok, rest) ∧
    strtok [','] tok = some (tok, []) := by
  obtain ⟨a, l, rfl⟩ := List.exists_cons_of_ne_nil hne
  have ha : a ≠ ',' := fun h => hc (by simp [h])
  have hall : ∀ c ∈ a :: l, (!([','] : List Char).contains c) = true := by
    intro c hcm
    have : c ≠ ',' := fun e => hc (e ▸ hcm)
    simp [this]
  have hd1 : (a :: l ++ ',' :: rest).dropWhile (fun c => ([','] : List Char).contains c)
      = a :: l ++ ',' :: rest := by
    rw [List.cons_append, List.dropWhile_cons_of_neg (by simp [ha])]
  have hd2 : (a :: l).dropWhile (fun c => ([','] : List Char).contains c) = a :: l := by
    rw [List.dropWhile_cons_of_neg (by simp [ha])]
  constructor
  · unfold strtok
    simp only [hd1]
    rw [List.takeWhile_append_of_pos hall, List.dropWhile_append_of_pos hall]
    simp
  · unfold strtok
    simp only [hd2]
    rw [List.takeWhile_eq_self_iff.mpr hall, List.dropWhile_eq_nil_iff.mpr hall]
    simp

theorem fmt_d_chars (i : Int) :
    fmt_d i ≠ [] ∧ ∀ c ∈ fmt_d i, c = '-' ∨ isdigit c = true := by
  unfold fmt_d
  split
  · refine ⟨by simp, ?_⟩
    intro c hc
    rcases List.mem_cons.mp hc with h | h
    · exact Or.inl h
    · exact Or.inr (fmt_u_isdigit _ c h)
  · exact ⟨fmt_u_ne_nil _, fun c hc => Or.inr (fmt_u_isdigit _ c hc)⟩

theorem fmt_d_not_mem (i : Int) (d : Char) (h1 : d ≠ '-') (h2 : isdigit d = false) :
    d ∉ fmt_d i := by
  intro hmem
  rcases (fmt_d_chars i).2 d hmem with h | h
  · exact h1 h
  · simp [h] at h2

theorem fmt_d_length (i : Int) (h1 : -2147483648 ≤ i) (h2 : i ≤ 2147483647) :
    (fmt_d i).length ≤ 11 := by
  have h := fmt_u_length 10 i.natAbs (by decide) (by omega)
  unfold fmt_d
  split
  · simp only [List.length_cons]
    omega
  · omega

/-- The loop body of `load_tasks` on the line `save_tasks` writes for a valid task: the
task is stored in the next slot. -/
theorem load_line_save_line (list : TaskList) (t : Task) (hv : valid_task t)
    (hcap : 0 < list.cap) :
    ∃ c, list.cap ≤ c ∧
      load_line list (save_line t) = some
        { data := Function.update list.data list.size t, size := list.size + 1, cap := c } := by
  obtain ⟨hne, hlen, hcomma, hnl, hnul, hdone, hlo, hhi⟩ := hv
  obtain ⟨c, hc, hle, _⟩ := ensure_cap_some list (list.size + 1) hcap
  refine ⟨c, hle, ?_⟩
  -- the done field is one digit
  obtain ⟨d, hd, hd1, hd2, hdparse⟩ : ∃ d : Char, fmt_d t.done = [d] ∧ d ≠ '\n' ∧ d ≠ '\r' ∧
      (if parse_int [d] ≠ 0 then (1 : Int) else 0) = t.done := by
    rcases hdone with h | h
    · exact ⟨'0', by rw [h]; decide, by decide, by decide, by rw [h]; decide⟩
    · exact ⟨'1', by rw [h]; decide, by decide, by decide, by rw [h]; decide⟩
  have hdc : d ≠ ',' := by
    intro e
    have := (fmt_d_chars t.done).2 d (by rw [hd]; simp)
    rw [e] at this
    revert this
    decide
  have hdn : d ≠ '\x00' := by
    intro e
    have := (fmt_d_chars t.done).2 d (by rw [hd]; simp)
    rw [e] at this
    revert this
    decide
  -- the buffer is a C string, and stripping removes the newline only
  have hraw : '\x00' ∉ save_line t := by
    have h1 := fmt_d_not_mem t.id '\x00' (by decide) (by decide)
    simp only [save_line, hd, List.mem_append, List.mem_singleton, not_or]
    exact ⟨⟨⟨⟨⟨h1, by decide⟩, hnul⟩, by decide⟩, fun e => hdn e.symm⟩, by decide⟩
  have hline : rstrip_newline (cstr (save_line t))
      = fmt_d t.id ++ ',' :: (t.title ++ ',' :: [d]) := by
    rw [cstr_of_no_nul _ hraw]
    simp only [save_line, hd]
    rw [rstrip_newline_line _ d hd1 hd2]
    simp
  have hidc : ',' ∉ fmt_d t.id := fmt_d_not_mem t.id ',' (by decide) (by decide)
  have htok1 := (strtok_token (fmt_d t.id) (t.title ++ ',' :: [d]) (fmt_d_chars t.id).1 hidc).1
  have htok2 := (strtok_token t.title [d] hne hcomma).1
  have htok3 := (strtok_token [d] [] (by simp) (by simpa using hdc.symm)).2
  have hnonempty : fmt_d t.id ++ ',' :: (t.title ++ ',' :: [d]) ≠ [] := by simp
  have htake : t.title.take (TITLE_MAX - 1) = t.title := List.take_of_length_le hlen
  simp only [load_line, hline, if_neg hnonempty, htok1, htok2, htok3, hc,
    parse_int_fmt_d t.id hlo hhi, htake, hdparse]

/-- The text `save_tasks` writes is the lines of the tasks one after the other. -/
theorem save_fold_cons (ts : List Task) (init : List Char) :
    ts.foldl (fun out t => out ++ save_line t) init
      = init ++ ts.foldl (fun out t => out ++ save_line t) [] := by
  induction ts generalizing init with
  | nil => simp
  | cons t ts ih =>
    simp only [List.foldl_cons, List.nil_append]
    rw [ih (init ++ save_line t), ih (save_line t), List.append_assoc]

theorem save_line_length (t : Task) (hv : valid_task t) : (save_line t).length ≤ 142 := by
  obtain ⟨_, hlen, _, _, _, hdone, hlo, hhi⟩ := hv
  have h1 := fmt_d_length t.id hlo hhi
  have h2 : (fmt_d t.done).length ≤ 1 := by
    rcases hdone with h | h <;> rw [h] <;> decide
  simp only [save_line, List.length_append, List.length_singleton]
  omega

theorem save_line_no_newline (t : Task) (hv : valid_task t) :
    '\n' ∉ fmt_d t.id ++ [','] ++ t.title ++ [','] ++ fmt_d t.done := by
  obtain ⟨_, _, _, hnl, _, _, _, _⟩ := hv
  have h1 := fmt_d_not_mem t.id '\n' (by decide) (by decide)
  have h2 := fmt_d_not_mem t.done '\n' (by decide) (by decide)
  simp only [List.mem_append, List.mem_singleton, not_or]
  exact ⟨⟨⟨⟨h1, by decide⟩, hnl⟩, by decide⟩, h2⟩

/-- Loading the lines written for valid tasks appends those tasks to the store. -/
theorem load_loop_saved (ts : List Task) (hv : ∀ t ∈ ts, valid_task t) (list : TaskList)
    (hcap : 0 < list.cap) (fuel : Nat)
    (hfuel : (ts.foldl (fun out t => out ++ save_line t) []).length < fuel) :
    ∃ list2, load_loop fuel list (ts.foldl (fun out t => out ++ save_line t) []) = some list2 ∧
      list2.tasks = list.tasks ++ ts ∧ 0 < list2.cap := by
  induction ts generalizing list fuel with
  | nil =>
    obtain ⟨f, rfl⟩ : ∃ f, fuel = f + 1 := ⟨fuel - 1, by omega⟩
    exact ⟨list, by simp [load_loop, fgets], by simp, hcap⟩
  | cons t ts ih =>
    have hvt := hv t (List.mem_cons_self _ _)
    have hsplit : (t :: ts).foldl (fun out t => out ++ save_line t) []
        = (fmt_d t.id ++ [','] ++ t.title ++ [','] ++ fmt_d t.done) ++
            '\n' :: ts.foldl (fun out t => out ++ save_line t) [] := by
      rw [List.foldl_cons, save_fold_cons]
      simp [save_line]
    rw [hsplit] at hfuel ⊢
    obtain ⟨f, rfl⟩ : ∃ f, fuel = f + 1 := ⟨fuel - 1, by omega⟩
    have hlen := save_line_length t hvt
    simp only [save_line, List.length_append, List.length_singleton] at hlen
    have hread : fgets (256 + TITLE_MAX)
        ((fmt_d t.id ++ [','] ++ t.title ++ [','] ++ fmt_d t.done) ++
            '\n' :: ts.foldl (fun out t => out ++ save_line t) [])
        = some (save_line t, ts.foldl (fun out t => out ++ save_line t) []) := by
      unfold fgets
      rw [if_neg (by simp)]
      rw [fgets_read_line _ _ _ (save_line_no_newline t hvt)
        (by simp only [List.length_append, List.length_singleton, TITLE_MAX]; omega)]
      rfl
    obtain ⟨c, hc, hline⟩ := load_line_save_line list t hvt hcap
    obtain ⟨list2, hrun, htasks, hcap2⟩ := ih (fun u hu => hv u (List.mem_cons_of_mem _ hu))
      { data := Function.update list.data list.size t, size := list.size + 1, cap := c }
      (by show 0 < c; omega) f
      (by simp only [List.length_append, List.length_cons] at hfuel; omega)
    refine ⟨list2, ?_, ?_, hcap2⟩
    · simp only [load_loop, hread, hline, hrun]
    · rw [htasks, tasks_push]
      simp [TaskList.tasks]

theorem save_tasks_text (list : TaskList) :
    save_tasks list true = .ok (list.tasks.foldl (fun out t => out ++ save_line t) []) := by
  simp [save_tasks, TaskList.tasks, List.foldl_map]

/-! ## Successive additions -/

theorem max_id_one_to (n : Nat) :
    max_id ((List.range n).map (fun k : Nat => (k : Int) + 1)) = (n : Int) := by
  induction n with
  | zero => simp [max_id]
  | succ n ih =>
    unfold max_id at ih ⊢
    rw [List.range_succ, List.map_append, List.map_cons, List.map_nil, max_fold_append, ih]
    rw [if_pos (by omega)]
    push_cast
    rfl

/-- When the slots at and above `size` hold no positive id (as in zero-filled memory) and
the ids stored are 1 .. n, successive accepted additions continue the sequence. -/
theorem add_tasks_ids (cons : List Console) (list : TaskList) (n : Nat) (hcap : 0 < list.cap)
    (hsize : list.size = n)
    (hids : list.tasks.map Task.id = (List.range n).map (fun k : Nat => (k : Int) + 1))
    (hclean : ∀ k, list.size ≤ k → (list.data k).id ≤ 0)
    (hacc : ∀ con ∈ cons, ∃ raw rest, fgets TITLE_MAX con.stdin = some (raw, rest) ∧
      rstrip_newline (cstr raw) ≠ [])
    (hN : n + cons.length ≤ 2147483647) :
    ∃ list2, add_tasks list cons = some list2 ∧
      list2.tasks.map Task.id = (List.range (n + cons.length)).map (fun k : Nat => (k : Int) + 1) := by
  induction cons generalizing list n with
  | nil => exact ⟨list, rfl, by simpa using hids⟩
  | cons con cons ih =>
    obtain ⟨raw, rest, hread, hne⟩ := hacc con (List.mem_cons_self _ _)
    obtain ⟨c, hc, hrun⟩ := add_task_accepted list con raw rest hcap hread hne
    have hstale := hclean list.size (le_refl _)
    have hmax : max_id (list.tasks.map Task.id ++ [(list.data list.size).id]) = (n : Int) := by
      have h := max_id_one_to n
      rw [← hids] at h
      unfold max_id at h ⊢
      rw [max_fold_append, h, if_neg (by omega)]
    rw [hmax] at hrun
    simp only [List.length_cons] at hN
    have hw : wrap_int ((n : Int) + 1) = (n : Int) + 1 :=
      wrap_int_of_range _ (by omega) (by omega)
    rw [hw] at hrun
    obtain ⟨list2, hrun2, hids2⟩ := ih
      { data := Function.update list.data list.size
          { id := (n : Int) + 1, title := sanitize_title (rstrip_newline (cstr raw)), done := 0 }
        size := list.size + 1
        cap := c }
      (n + 1) (by show 0 < c; omega) (by show list.size + 1 = n + 1; omega)
      (by
        rw [tasks_push]
        have e : TaskList.tasks { data := list.data, size := list.size, cap := c }
            = list.tasks := rfl
        rw [e, List.map_append, hids, List.range_succ, List.map_append]
        simp)
      (by
        intro k hk
        have hk2 : list.size + 1 ≤ k := hk
        have hne2 : k ≠ list.size := by omega
        show (Function.update list.data list.size _ k).id ≤ 0
        rw [Function.update_noteq hne2]
        exact hclean k (by omega))
      (fun con2 h2 => hacc con2 (List.mem_cons_of_mem _ h2))
      (by omega)
    refine ⟨list2, ?_, ?_⟩
    · simp only [add_tasks, hrun]
      exact hrun2
    · have e : n + 1 + cons.length = n + (cons.length + 1) := by omega
      rw [hids2, List.length_cons, e]

/-- On a block of memory without positive ids, `n` accepted additions to the fresh store
give the ids 1, 2, ..., n in creation order. -/
theorem add_tasks_from_clean_memory (mem : Nat → Task) (cons : List Console)
    (hclean : ∀ k, (mem k).id ≤ 0)
    (hacc : ∀ con ∈ cons, ∃ raw rest, fgets TITLE_MAX con.stdin = some (raw, rest) ∧
      rstrip_newline (cstr raw) ≠ [])
    (hN : cons.length ≤ 2147483647) :
    ∃ list2, add_tasks (init_list mem) cons = some list2 ∧
      list2.tasks.map Task.id = (List.range cons.length).map (fun k : Nat => (k : Int) + 1) := by
  have h := add_tasks_ids cons (init_list mem) 0 (by show 0 < 8; decide) rfl
    (by simp [TaskList.tasks, init_list]) (fun k _ => hclean k) hacc (by omega)
  simpa using h

/-! ## The saturating parse -/

theorem decimal_fold (ds : List Char) (a : Nat) :
    ds.foldl (fun acc c => acc * 10 + (digit_val c : Int)) (a : Int)
      = ((ds.foldl (fun v c => digit_val c + 10 * v) a : Nat) : Int) := by
  induction ds generalizing a with
  | nil => rfl
  | cons c ds ih =>
    simp only [List.foldl_cons]
    have e : (a : Int) * 10 + (digit_val c : Int) = ((digit_val c + 10 * a : Nat) : Int) := by
      push_cast
      ring
    rw [e, ih]

theorem decimal_value_eq (ds : List Char) :
    ds.foldl (fun acc c => acc * 10 + (digit_val c : Int)) 0 = (decimal_value ds : Int) := by
  have h := decimal_fold ds 0
  simp only [Nat.cast_zero] at h
  rw [h, decimal_value, List.foldr_reverse]

/-- The two clamps of `parse_int` (the one of `strtol` to `long`, then the one to `int`)
and the conversion to `int` amount to one clamp to the range of `int`. -/
theorem clamp_twice (v : Int) :
    wrap_int
      (if (if (if v < LONG_MIN then LONG_MIN else if v > LONG_MAX then LONG_MAX else v)
            < -2147483648 then -2147483648
          else (if v < LONG_MIN then LONG_MIN else if v > LONG_MAX then LONG_MAX else v))
          > 2147483647 then 2147483647
       else (if (if v < LONG_MIN then LONG_MIN else if v > LONG_MAX then LONG_MAX else v)
            < -2147483648 then -2147483648
          else (if v < LONG_MIN then LONG_MIN else if v > LONG_MAX then LONG_MAX else v)))
      = max (-2147483648) (min 2147483647 v) := by
  unfold wrap_int LONG_MIN LONG_MAX
  rcases le_total v 2147483647 with h1 | h1 <;> rcases le_total (-2147483648) v with h2 | h2
  all_goals (simp only [min_def, max_def]; split_ifs <;> omega)

/-! ## Saving, counting, searching -/

theorem save_fold_flatten (ts : List Task) :
    ts.foldl (fun out t => out ++ save_line t) [] = (ts.map save_line).flatten := by
  induction ts with
  | nil => rfl
  | cons t ts ih =>
    rw [List.foldl_cons, save_fold_cons, ih]
    simp

theorem count_done_fold (data : Nat → Task) (n : Nat) (hn : n < SIZE_MOD) :
    (List.range n).foldl (fun d i => if (data i).done ≠ 0 then (d + 1) % SIZE_MOD else d) 0
      = ((List.range n).map data).countP (fun t => t.done ≠ 0) := by
  induction n with
  | zero => rfl
  | succ n ih =>
    rw [List.range_succ, List.foldl_append, ih (by omega), List.map_append, List.countP_append]
    have hle : ((List.range n).map data).countP (fun t => t.done ≠ 0) ≤ n := by
      have := List.countP_le_length (fun t : Task => decide (t.done ≠ 0))
        (l := (List.range n).map data)
      simpa using this
    simp only [List.foldl_cons, List.foldl_nil, List.map_cons, List.map_nil]
    by_cases hd : (data n).done = 0
    · have hc : List.countP (fun t : Task => decide (t.done ≠ 0)) [data n] = 0 := by
        simp [List.countP_cons, hd]
      rw [hc]
      simp [hd]
    · have hmod : (((List.range n).map data).countP (fun t => t.done ≠ 0) + 1) % SIZE_MOD
          = ((List.range n).map data).countP (fun t => t.done ≠ 0) + 1 :=
        Nat.mod_eq_of_lt (by omega)
      have hc : List.countP (fun t : Task => decide (t.done ≠ 0)) [data n] = 1 := by
        simp [List.countP_cons, hd]
      rw [hc, if_pos hd, hmod]

theorem strstr_iff (hay needle : List Char) : strstr hay needle = true ↔ needle <:+: hay := by
  induction hay with
  | nil => simp [strstr]
  | cons c hay ih =>
    rw [strstr, Bool.or_eq_true, ih, List.infix_cons_iff, List.isPrefixOf_iff_prefix]

/-- The loop of `search_tasks` over a sequence of tasks: the rows of the matching tasks
are printed in order, and `found` is set as soon as one matches. -/
theorem search_fold (q : List Char) (ts : List Task) (con : Console) (found : Int) :
    ts.foldl
      (fun (acc : Console × Int) t =>
        if strstr t.title q then (acc.1.printf (task_row t), 1) else acc)
      (con, found)
      = (con.printf ((ts.filter (fun t => decide (q <:+: t.title))).map task_row).flatten,
         if ts.filter (fun t => decide (q <:+: t.title)) = [] then found else 1) := by
  induction ts generalizing con found with
  | nil => simp [Console.printf]
  | cons t ts ih =>
    rw [List.foldl_cons]
    by_cases h : q <:+: t.title
    · have hs : strstr t.title q = true := (strstr_iff _ _).mpr h
      rw [if_pos hs, ih]
      simp [h, Console.printf, List.append_assoc]
    · have hs : ¬ strstr t.title q = true := fun e => h ((strstr_iff _ _).mp e)
      rw [if_neg hs, ih]
      simp [h]

/-! ## Reading a file line by line -/

theorem fgets_consumes (n : Nat) (s raw rest : List Char) (hn : 2 ≤ n)
    (h : fgets n s = some (raw, rest)) : rest.length < s.length := by
  have hsplit := (fgets_some n s raw rest h).1
  unfold fgets at h
  split at h
  · cases h
  · rename_i hne
    obtain ⟨k, hk⟩ : ∃ k, n - 1 = k + 1 := ⟨n - 2, by omega⟩
    obtain ⟨c, s2, rfl⟩ := List.exists_cons_of_ne_nil hne
    rw [hk] at h
    have hraw : raw ≠ [] := by
      simp only [Option.some.injEq] at h
      by_cases hc : c = '\n'
      · simp only [fgets_read, if_pos hc, Prod.mk.injEq] at h
        rw [← h.1]
        simp
      · simp only [fgets_read, if_neg hc, Prod.mk.injEq] at h
        rw [← h.1]
        simp
    have hlen : raw.length + rest.length = (c :: s2).length := by
      rw [← hsplit, List.length_append]
    have : 0 < raw.length := List.length_pos.mpr hraw
    omega

/-- Enough fuel is enough: the result of the loading loop does not depend on it. -/
theorem load_loop_fuel (fuel fuel2 : Nat) (list : TaskList) (f : List Char)
    (h1 : f.length < fuel) (h2 : f.length < fuel2) :
    load_loop fuel list f = load_loop fuel2 list f := by
  induction fuel generalizing fuel2 list f with
  | zero => omega
  | succ fuel ih =>
    obtain ⟨g, rfl⟩ : ∃ g, fuel2 = g + 1 := ⟨fuel2 - 1, by omega⟩
    cases hread : fgets (256 + TITLE_MAX) f with
    | none => simp only [load_loop, hread]
    | some r =>
      obtain ⟨raw, rest⟩ := r
      have hlt := fgets_consumes _ _ _ _ (by decide) hread
      cases hline : load_line list raw with
      | none => simp only [load_loop, hread, hline]
      | some l2 =>
        simp only [load_loop, hread, hline]
        exact ih g l2 rest (by omega) (by omega)

theorem fgets_read_prefix (k : Nat) (g f2 : List Char) (hk : 0 < k) :
    fgets_read k (g ++ ['\n'] ++ f2)
        = ((fgets_read k (g ++ ['\n'])).1, (fgets_read k (g ++ ['\n'])).2 ++ f2) ∧
      newline_terminated (fgets_read k (g ++ ['\n'])).2 := by
  induction g generalizing k with
  | nil =>
    obtain ⟨k2, rfl⟩ : ∃ k2, k = k2 + 1 := ⟨k - 1, by omega⟩
    simp [fgets_read, newline_terminated]
  | cons c g ih =>
    obtain ⟨k2, rfl⟩ : ∃ k2, k = k2 + 1 := ⟨k - 1, by omega⟩
    by_cases hc : c = '\n'
    · simp only [List.cons_append, fgets_read, if_pos hc]
      exact ⟨by simp, Or.inr ⟨g, by simp⟩⟩
    · simp only [List.cons_append, fgets_read, if_neg hc]
      rcases Nat.eq_zero_or_pos k2 with h0 | h0
      · subst h0
        simp only [fgets_read]
        exact ⟨by simp, Or.inr ⟨g, by simp⟩⟩
      · have h := ih k2 h0
        refine ⟨?_, h.2⟩
        show (c :: (fgets_read k2 (g ++ ['\n'] ++ f2)).1,
              (fgets_read k2 (g ++ ['\n'] ++ f2)).2) = _
        rw [h.1]
        rfl

/-- Loading a text that starts with complete lines is loading those lines and then the
rest, from the store reached. -/
theorem load_append (f1 f2 : List Char) (list : TaskList) (h1 : newline_terminated f1) :
    load_tasks list (some (f1 ++ f2))
      = (load_tasks list (some f1)).bind (fun l => load_tasks l (some f2)) := by
  have key : ∀ (fuel : Nat) (f1 : List Char) (list : TaskList), newline_terminated f1 →
      f1.length < fuel →
      load_loop (fuel + f2.length) list (f1 ++ f2)
        = (load_loop fuel list f1).bind (fun l => load_loop (f2.length + 1) l f2) := by
    intro fuel
    induction fuel with
    | zero => intro f1 list _ h; omega
    | succ fuel ih =>
      intro f1 list hnl hlen
      rcases hnl with rfl | ⟨g, rfl⟩
      · have e : load_loop (fuel + 1) list [] = some list := by simp [load_loop, fgets]
        rw [e, List.nil_append, Option.some_bind]
        exact load_loop_fuel _ _ _ _ (by omega) (by omega)
      · have hne : g ++ ['\n'] ++ f2 ≠ [] := by simp
        have hne2 : g ++ ['\n'] ≠ [] := by simp
        obtain ⟨hp, hrest⟩ := fgets_read_prefix (256 + TITLE_MAX - 1) g f2 (by decide)
        have hread1 : fgets (256 + TITLE_MAX) (g ++ ['\n'])
            = some ((fgets_read (256 + TITLE_MAX - 1) (g ++ ['\n'])).1,
                    (fgets_read (256 + TITLE_MAX - 1) (g ++ ['\n'])).2) := by
          simp only [fgets, if_neg hne2]
        have hread2 : fgets (256 + TITLE_MAX) (g ++ ['\n'] ++ f2)
            = some ((fgets_read (256 + TITLE_MAX - 1) (g ++ ['\n'])).1,
                    (fgets_read (256 + TITLE_MAX - 1) (g ++ ['\n'])).2 ++ f2) := by
          simp only [fgets, if_neg hne, hp]
        have hlt := fgets_consumes _ _ _ _ (by decide) hread1
        have e : fuel + 1 + f2.length = (fuel + f2.length) + 1 := by omega
        rw [e]
        cases hline : load_line list (fgets_read (256 + TITLE_MAX - 1) (g ++ ['\n'])).1 with
        | none => simp only [load_loop, hread1, hread2, hline, Option.none_bind]
        | some l2 =>
          simp only [load_loop, hread1, hread2, hline]
          exact ih _ l2 hrest (by omega)
  have h := key (f1.length + 1) f1 list h1 (by omega)
  simp only [load_tasks]
  rw [← h]
  exact load_loop_fuel _ _ _ _ (by simp only [List.length_append]; omega)
    (by simp only [List.length_append]; omega)

/-! ## Field splitting -/

theorem split_commas_ne_nil (s : List Char) : split_commas s ≠ [] := by
  cases s with
  | nil => simp [split_commas]
  | cons c s =>
    by_cases hc : c = ','
    · simp [split_commas, hc]
    · simp only [split_commas, if_neg hc]
      split <;> simp

theorem split_commas_cons_comma (s : List Char) :
    split_commas (',' :: s) = [] :: split_commas s := by
  simp [split_commas]

theorem split_commas_cons_other (c : Char) (s : List Char) (hc : c ≠ ',') :
    ∃ p ps, split_commas s = p :: ps ∧ split_commas (c :: s) = (c :: p) :: ps := by
  obtain ⟨p, ps, h⟩ := List.exists_cons_of_ne_nil (split_commas_ne_nil s)
  exact ⟨p, ps, h, by simp [split_commas, hc, h]⟩

theorem split_commas_length (s : List Char) :
    (split_commas s).length = s.count ',' + 1 := by
  induction s with
  | nil => simp [split_commas]
  | cons c s ih =>
    by_cases hc : c = ','
    · subst hc
      rw [split_commas_cons_comma, List.length_cons, ih, List.count_cons_self]
    · obtain ⟨p, ps, h1, h2⟩ := split_commas_cons_other c s hc
      have hcount : List.count ',' (c :: s) = List.count ',' s := by
        rw [List.count_cons_of_ne (fun e => hc e.symm)]
      rw [h2, List.length_cons, hcount]
      rw [h1, List.length_cons] at ih
      exact ih

theorem split_commas_mem (s : List Char) : ∀ p ∈ split_commas s, ',' ∉ p ∧ p.Sublist s := by
  induction s with
  | nil =>
    intro p hp
    simp only [split_commas, List.mem_singleton] at hp
    subst hp
    exact ⟨by simp, List.Sublist.refl _⟩
  | cons c s ih =>
    intro p hp
    by_cases hc : c = ','
    · subst hc
      rw [split_commas_cons_comma] at hp
      rcases List.mem_cons.mp hp with rfl | h
      · exact ⟨by simp, List.nil_sublist _⟩
      · exact ⟨(ih p h).1, List.Sublist.cons _ (ih p h).2⟩
    · obtain ⟨q, qs, h1, h2⟩ := split_commas_cons_other c s hc
      rw [h2] at hp
      rcases List.mem_cons.mp hp with rfl | h
      · have hq := ih q (by rw [h1]; exact List.mem_cons_self _ _)
        refine ⟨?_, List.Sublist.cons₂ _ hq.2⟩
        intro hmem
        rcases List.mem_cons.mp hmem with e | e
        · exact hc e.symm
        · exact hq.1 e
      · have hq := ih p (by rw [h1]; exact List.mem_cons_of_mem _ h)
        exact ⟨hq.1, List.Sublist.cons _ hq.2⟩

/-- Every piece is not empty, holds no comma and is made of characters of the line. -/
theorem pieces_mem (s : List Char) :
    ∀ p ∈ pieces s, p ≠ [] ∧ ',' ∉ p ∧ p.Sublist s := by
  intro p hp
  simp only [pieces, List.mem_filter] at hp
  obtain ⟨h1, h2⟩ := hp
  refine ⟨?_, split_commas_mem s p h1⟩
  intro e
  subst e
  simp at h2

theorem pieces_length (s : List Char) : (pieces s).length ≤ s.count ',' + 1 := by
  rw [← split_commas_length]
  exact List.length_filter_le _ _

theorem split_commas_head (s : List Char) :
    split_commas s = s.takeWhile (fun c => !([','] : List Char).contains c) ::
      (match s.dropWhile (fun c => !([','] : List Char).contains c) with
       | [] => []
       | _ :: r => split_commas r) := by
  induction s with
  | nil => simp [split_commas]
  | cons c s ih =>
    by_cases hc : c = ','
    · subst hc
      rw [split_commas_cons_comma]
      simp
    · obtain ⟨p, ps, h1, h2⟩ := split_commas_cons_other c s hc
      rw [h2]
      rw [h1] at ih
      have ht : (c :: s).takeWhile (fun c => !([','] : List Char).contains c)
          = c :: s.takeWhile (fun c => !([','] : List Char).contains c) := by
        simp [List.takeWhile_cons, hc]
      have hd : (c :: s).dropWhile (fun c => !([','] : List Char).contains c)
          = s.dropWhile (fun c => !([','] : List Char).contains c) := by
        simp [List.dropWhile_cons, hc]
      rw [ht, hd]
      simp only [List.cons.injEq] at ih
      rw [← ih.1, ← ih.2]

/-- One `strtok` call returns the first piece and leaves the text of the other pieces. -/
theorem strtok_pieces (s : List Char) :
    match strtok [','] s with
    | none => pieces s = []
    | some r => pieces s = r.1 :: pieces r.2 := by
  induction s with
  | nil => simp [strtok, pieces, split_commas]
  | cons c s ih =>
    by_cases hc : c = ','
    · subst hc
      have e1 : strtok [','] (',' :: s) = strtok [','] s := by
        simp [strtok]
      have e2 : pieces (',' :: s) = pieces s := by
        simp [pieces, split_commas_cons_comma]
      rw [e1, e2]
      exact ih
    · have hp : ¬ (([','] : List Char).contains c) = true := by simp [hc]
      have hp2 : (!([','] : List Char).contains c) = true := by simp [hc]
      have e1 : strtok [','] (c :: s)
          = some ((c :: s).takeWhile (fun c => !([','] : List Char).contains c),
                  ((c :: s).dropWhile (fun c => !([','] : List Char).contains c)).drop 1) := by
        simp only [strtok, List.dropWhile_cons_of_neg hp]
        simp
      rw [e1]
      simp only
      rw [pieces, split_commas_head (c :: s)]
      have hne : ((c :: s).takeWhile (fun c => !([','] : List Char).contains c)).isEmpty
          = false := by
        have ht : (c :: s).takeWhile (fun c => !([','] : List Char).contains c)
            = c :: s.takeWhile (fun c => !([','] : List Char).contains c) := by
          simp [List.takeWhile_cons, hc]
        rw [ht]
        rfl
      rw [List.filter_cons_of_pos (by rw [hne]; rfl)]
      congr 1
      cases (c :: s).dropWhile (fun c => !([','] : List Char).contains c) with
      | nil => simp [pieces, split_commas]
      | cons d r => simp [pieces]

/-- The loop body of `load_tasks` in terms of the pieces of the line: with three pieces
or more a task built from the first three is stored, otherwise nothing is. -/
theorem load_line_pieces (list : TaskList) (raw : List Char) :
    load_line list raw =
      match pieces (rstrip_newline (cstr raw)) with
      | p1 :: p2 :: p3 :: _ =>
        match ensure_cap list (list.size + 1) with
        | none => none
        | some l =>
          some { l with
            data := Function.update l.data l.size
              { id := parse_int p1
                title := p2.take (TITLE_MAX - 1)
                done := if parse_int p3 ≠ 0 then 1 else 0 }
            size := l.size + 1 }
      | _ => some list := by
  by_cases hl : rstrip_newline (cstr raw) = []
  · have hp : pieces ([] : List Char) = [] := by simp [pieces, split_commas]
    simp only [load_line, hl, if_true, hp]
  · have h1 := strtok_pieces (rstrip_newline (cstr raw))
    cases hs1 : strtok [','] (rstrip_newline (cstr raw)) with
    | none =>
      rw [hs1] at h1
      simp only at h1
      simp only [load_line, if_neg hl, hs1, h1]
    | some r1 =>
      rw [hs1] at h1
      simp only at h1
      have h2 := strtok_pieces r1.2
      cases hs2 : strtok [','] r1.2 with
      | none =>
        rw [hs2] at h2
        simp only at h2
        simp only [load_line, if_neg hl, hs1, hs2, h1, h2]
      | some r2 =>
        rw [hs2] at h2
        simp only at h2
        have h3 := strtok_pieces r2.2
        cases hs3 : strtok [','] r2.2 with
        | none =>
          rw [hs3] at h3
          simp only at h3
          simp only [load_line, if_neg hl, hs1, hs2, hs3, h1, h2, h3]
        | some r3 =>
          rw [hs3] at h3
          simp only at h3
          simp only [load_line, if_neg hl, hs1, hs2, hs3, h1, h2, h3]

/-! ## What a loaded task looks like -/

theorem rstrip_newline_sublist (x : List Char) : (rstrip_newline x).Sublist x := by
  unfold rstrip_newline
  have h := (List.dropWhile_sublist (fun c => c == '\n' || c == '\r') (l := x.reverse)).reverse
  rwa [List.reverse_reverse] at h

theorem rstrip_newline_cons (c : Char) (x : List Char) :
    rstrip_newline (c :: x) =
      if rstrip_newline x = [] then (if (c == '\n' || c == '\r') = true then [] else [c])
      else c :: rstrip_newline x := by
  unfold rstrip_newline
  rw [List.reverse_cons, List.dropWhile_append]
  by_cases h : (x.reverse.dropWhile (fun c => c == '\n' || c == '\r')) = []
  · by_cases hc : (c == '\n' || c == '\r') = true
    · simp [h, hc]
    · simp [h, hc]
  · have h2 : (x.reverse.dropWhile (fun c => c == '\n' || c == '\r')).isEmpty = false := by
      cases hx : x.reverse.dropWhile (fun c => c == '\n' || c == '\r') with
      | nil => exact absurd hx h
      | cons _ _ => rfl
    simp [h, h2]

theorem cstr_cons (c : Char) (x : List Char) :
    cstr (c :: x) = if c = '\x00' then [] else c :: cstr x := by
  by_cases h : c = '\x00'
  · simp [cstr, h]
  · simp [cstr, List.takeWhile_cons, h]

theorem cstr_no_nul (buf : List Char) : '\x00' ∉ cstr buf := by
  intro h
  have := List.mem_takeWhile_imp h
  simp at this

/-- What `fgets` hands over holds a newline at its end only, so the stripped line holds
none. -/
theorem fgets_read_clean (k : Nat) (s : List Char) :
    '\n' ∉ rstrip_newline (cstr (fgets_read k s).1) := by
  induction k generalizing s with
  | zero => simp [fgets_read, cstr, rstrip_newline]
  | succ k ih =>
    cases s with
    | nil => simp [fgets_read, cstr, rstrip_newline]
    | cons c s =>
      by_cases hc : c = '\n'
      · subst hc
        simp only [fgets_read, if_true]
        decide
      · simp only [fgets_read, if_neg hc]
        rw [cstr_cons]
        by_cases h0 : c = '\x00'
        · simp [h0, rstrip_newline]
        · rw [if_neg h0, rstrip_newline_cons]
          have := ih s
          split
          · split
            · simp
            · simp [Ne.symm hc]
          · intro hmem
            rcases List.mem_cons.mp hmem with e | e
            · exact hc e.symm
            · exact this e

theorem fgets_clean (n : Nat) (s raw rest : List Char) (h : fgets n s = some (raw, rest)) :
    '\n' ∉ rstrip_newline (cstr raw) := by
  unfold fgets at h
  split at h
  · cases h
  · simp only [Option.some.injEq] at h
    have := fgets_read_clean (n - 1) s
    rw [h] at this
    exact this

theorem parse_int_range (s : List Char) :
    -2147483648 ≤ parse_int s ∧ parse_int s ≤ 2147483647 := by
  simp only [parse_int, wrap_int]
  split_ifs <;> omega

theorem ensure_cap_keeps (list l : TaskList) (need : Nat) (h : ensure_cap list need = some l) :
    l.data = list.data ∧ l.size = list.size := by
  unfold ensure_cap at h
  split at h
  · simp only [Option.some.injEq] at h
    subst h
    exact ⟨rfl, rfl⟩
  · obtain ⟨c, _, hc⟩ := Option.map_eq_some'.mp h
    subst hc
    exact ⟨rfl, rfl⟩

/-- A task stored by the loop body of `load_tasks` from a line without newline. -/
theorem loaded_task_valid (line p1 p2 p3 : List Char) (hnl : '\n' ∉ line)
    (hnul : '\x00' ∉ line) (hp2 : p2 ∈ pieces line) :
    valid_task
      { id := parse_int p1
        title := p2.take (TITLE_MAX - 1)
        done := if parse_int p3 ≠ 0 then 1 else 0 } := by
  obtain ⟨hne, hcomma, hsub⟩ := pieces_mem line p2 hp2
  have htake : (p2.take (TITLE_MAX - 1)).Sublist p2 := List.take_sublist _ _
  refine ⟨?_, ?_, ?_, ?_, ?_, ?_, (parse_int_range p1).1, (parse_int_range p1).2⟩
  · intro e
    rcases List.take_eq_nil_iff.mp e with h | h
    · revert h
      decide
    · exact hne h
  · exact List.length_take_le _ _
  · exact fun h => hcomma (htake.mem h)
  · exact fun h => hnl (hsub.mem (htake.mem h))
  · exact fun h => hnul (hsub.mem (htake.mem h))
  · show (if parse_int p3 ≠ 0 then (1 : Int) else 0) = 0 ∨
      (if parse_int p3 ≠ 0 then (1 : Int) else 0) = 1
    split
    · exact Or.inr rfl
    · exact Or.inl rfl

/-- One pass of the loop body of `load_tasks`, when it returns: the store is as before,
or one valid task was appended. -/
theorem load_line_some (list l2 : TaskList) (raw : List Char)
    (hclean : '\n' ∉ rstrip_newline (cstr raw)) (h : load_line list raw = some l2) :
    l2.tasks = list.tasks ∨ ∃ t, valid_task t ∧ l2.tasks = list.tasks ++ [t] := by
  rw [load_line_pieces] at h
  have hnul : '\x00' ∉ rstrip_newline (cstr raw) :=
    fun hm => cstr_no_nul raw ((rstrip_newline_sublist _).mem hm)
  split at h
  · rename_i p1 p2 p3 rest hp
    have hp2 : p2 ∈ pieces (rstrip_newline (cstr raw)) := by rw [hp]; simp
    cases hc : ensure_cap list (list.size + 1) with
    | none => rw [hc] at h; cases h
    | some l =>
      rw [hc] at h
      simp only [Option.some.injEq] at h
      obtain ⟨hd, hs⟩ := ensure_cap_keeps list l _ hc
      right
      refine ⟨_, loaded_task_valid _ p1 p2 p3 hclean hnul hp2, ?_⟩
      rw [← h, hd, hs]
      exact tasks_push list.data list.size l.cap _
  · simp only [Option.some.injEq] at h
    left
    rw [h]

/-- On a store of positive capacity the loop body of `load_tasks` returns. -/
theorem load_line_total (list : TaskList) (raw : List Char) (hcap : 0 < list.cap) :
    ∃ l2, load_line list raw = some l2 ∧ 0 < l2.cap := by
  rw [load_line_pieces]
  obtain ⟨c, hc, hle, _⟩ := ensure_cap_some list (list.size + 1) hcap
  split
  · rw [hc]
    exact ⟨_, rfl, by show 0 < c; omega⟩
  · exact ⟨list, rfl, hcap⟩

/-- When `load_tasks` returns, it has appended valid tasks to the store and nothing
else. -/
theorem load_loop_some (fuel : Nat) (list l2 : TaskList) (f : List Char)
    (h : load_loop fuel list f = some l2) :
    ∃ ts, l2.tasks = list.tasks ++ ts ∧ ∀ t ∈ ts, valid_task t := by
  induction fuel generalizing list f with
  | zero => simp [load_loop] at h
  | succ fuel ih =>
    cases hread : fgets (256 + TITLE_MAX) f with
    | none =>
      simp only [load_loop, hread, Option.some.injEq] at h
      exact ⟨[], by rw [← h]; simp, by simp⟩
    | some r =>
      obtain ⟨raw, rest⟩ := r
      have hclean := fgets_clean _ _ _ _ hread
      cases hline : load_line list raw with
      | none => simp [load_loop, hread, hline] at h
      | some l1 =>
        simp only [load_loop, hread, hline] at h
        obtain ⟨ts, hts, hv⟩ := ih l1 rest h
        rcases load_line_some list l1 raw hclean hline with h1 | ⟨t, ht, h1⟩
        · exact ⟨ts, by rw [hts, h1], hv⟩
        · refine ⟨t :: ts, by rw [hts, h1]; simp, ?_⟩
          intro u hu
          rcases List.mem_cons.mp hu with rfl | hu
          · exact ht
          · exact hv u hu

/-- On a store of positive capacity `load_tasks` returns, whatever the file holds. -/
theorem load_loop_total (fuel : Nat) (list : TaskList) (f : List Char) (hcap : 0 < list.cap)
    (hfuel : f.length < fuel) :
    ∃ l2, load_loop fuel list f = some l2 ∧ 0 < l2.cap := by
  induction fuel generalizing list f with
  | zero => omega
  | succ fuel ih =>
    cases hread : fgets (256 + TITLE_MAX) f with
    | none => exact ⟨list, by simp only [load_loop, hread], hcap⟩
    | some r =>
      obtain ⟨raw, rest⟩ := r
      have hlt := fgets_consumes _ _ _ _ (by decide) hread
      obtain ⟨l1, hline, hcap1⟩ := load_line_total list raw hcap
      obtain ⟨l2, hrun, hcap2⟩ := ih l1 rest hcap1 (by omega)
      exact ⟨l2, by simp only [load_loop, hread, hline, hrun], hcap2⟩

/-! ## Lines that are skipped -/

theorem split_lines_spec (s : List Char) :
    unlines (split_lines s).1 ++ (split_lines s).2 = s := by
  induction s with
  | nil => rfl
  | cons c s ih =>
    by_cases hc : c = '\n'
    · subst hc
      simp only [split_lines, if_true]
      simp only [unlines, List.map_cons, List.flatten_cons, List.nil_append,
        List.cons_append] at ih ⊢
      rw [ih]
    · simp only [split_lines, if_neg hc]
      cases h : (split_lines s).1 with
      | nil =>
        rw [h] at ih
        simp only [unlines, List.map_nil, List.flatten_nil, List.nil_append] at ih ⊢
        rw [ih]
      | cons l ls =>
        rw [h] at ih
        simp only [unlines, List.map_cons, List.flatten_cons, List.cons_append] at ih ⊢
        rw [ih]

/-- The lines `split_lines` returns are lines: none of them holds a newline. -/
theorem split_lines_no_newline (s : List Char) :
    (∀ l ∈ (split_lines s).1, '\n' ∉ l) ∧ '\n' ∉ (split_lines s).2 := by
  induction s with
  | nil => simp [split_lines]
  | cons c s ih =>
    by_cases hc : c = '\n'
    · subst hc
      simp only [split_lines, if_true]
      refine ⟨?_, ih.2⟩
      intro l hl
      rcases List.mem_cons.mp hl with rfl | h
      · simp
      · exact ih.1 l h
    · simp only [split_lines, if_neg hc]
      cases h : (split_lines s).1 with
      | nil =>
        refine ⟨by simp, ?_⟩
        intro hm
        rcases List.mem_cons.mp hm with e | e
        · exact hc e.symm
        · exact ih.2 e
      | cons l ls =>
        rw [h] at ih
        refine ⟨?_, ih.2⟩
        intro m hm
        rcases List.mem_cons.mp hm with rfl | h2
        · intro hm2
          rcases List.mem_cons.mp hm2 with e | e
          · exact hc e.symm
          · exact ih.1 l (List.mem_cons_self _ _) e
        · exact ih.1 m (List.mem_cons_of_mem _ h2)

/-- A text with at most one comma loads nothing, however it is cut into lines. -/
theorem load_loop_short (fuel : Nat) (list : TaskList) (f : List Char)
    (hcount : f.count ',' ≤ 1) (hfuel : f.length < fuel) :
    load_loop fuel list f = some list := by
  induction fuel generalizing f with
  | zero => omega
  | succ fuel ih =>
    cases hread : fgets (256 + TITLE_MAX) f with
    | none => simp only [load_loop, hread]
    | some r =>
      obtain ⟨raw, rest⟩ := r
      have hlt := fgets_consumes _ _ _ _ (by decide) hread
      have hsplit := (fgets_some _ _ _ _ hread).1
      have hc : raw.count ',' + rest.count ',' ≤ 1 := by
        rw [← hsplit, List.count_append] at hcount
        exact hcount
      have hline : load_line list raw = some list := by
        rw [load_line_pieces]
        have h1 : (rstrip_newline (cstr raw)).count ',' ≤ raw.count ',' :=
          ((rstrip_newline_sublist _).trans (List.takeWhile_sublist _)).count_le _
        have h2 := pieces_length (rstrip_newline (cstr raw))
        split
        · rename_i hp
          rw [hp] at h2
          simp only [List.length_cons] at h2
          omega
        · rfl
      simp only [load_loop, hread, hline]
      exact ih rest (by omega) (by omega)

theorem load_tasks_short (list : TaskList) (f : List Char) (hcount : f.count ',' ≤ 1) :
    load_tasks list (some f) = some list :=
  load_loop_short _ list f hcount (by omega)

theorem load_drop_short_lines (ls : List (List Char)) (last : List Char) (list : TaskList) :
    load_tasks list (some (unlines (ls.filter three_fields) ++
        (if three_fields last then last else [])))
      = load_tasks list (some (unlines ls ++ last)) := by
  induction ls generalizing list with
  | nil =>
    simp only [List.filter_nil, unlines, List.map_nil, List.flatten_nil, List.nil_append]
    by_cases h : three_fields last = true
    · rw [if_pos h]
    · rw [if_neg h]
      have hc : last.count ',' ≤ 1 := by
        simp only [three_fields, decide_eq_true_eq] at h
        omega
      rw [load_tasks_short list last hc]
      rfl
  | cons l ls ih =>
    have hnl : newline_terminated (l ++ ['\n']) := Or.inr ⟨l, rfl⟩
    have hu : ∀ ms : List (List Char), unlines (l :: ms) = (l ++ ['\n']) ++ unlines ms := by
      intro ms
      simp [unlines]
    rw [hu, List.append_assoc, load_append _ _ _ hnl]
    by_cases h : three_fields l = true
    · rw [List.filter_cons_of_pos h, hu, List.append_assoc, load_append _ _ _ hnl]
      congr 1
      funext x
      exact ih x
    · rw [List.filter_cons_of_neg h]
      have hc : (l ++ ['\n']).count ',' ≤ 1 := by
        simp only [three_fields, decide_eq_true_eq] at h
        rw [List.count_append]
        have : List.count ',' ['\n'] = 0 := by decide
        omega
      rw [load_tasks_short list _ hc, Option.some_bind]
      exact ih list

/-! ## A line with three fields -/

theorem fgets_read_all (k : Nat) (line : List Char) (hnl : '\n' ∉ line)
    (hlen : line.length ≤ k) : fgets_read k line = (line, []) := by
  induction line generalizing k with
  | nil => cases k <;> rfl
  | cons c line ih =>
    obtain ⟨k2, rfl⟩ : ∃ k2, k = k2 + 1 := ⟨k - 1, by simp at hlen; omega⟩
    have hc : c ≠ '\n' := fun h => hnl (by simp [h])
    have hb : '\n' ∉ line := fun h => hnl (List.mem_cons_of_mem _ h)
    have e := ih k2 hb (by simp at hlen; omega)
    rw [fgets_read, if_neg hc, e]

theorem rstrip_newline_append_nl (line : List Char) :
    rstrip_newline (line ++ ['\n']) = rstrip_newline line := by
  simp [rstrip_newline]

/-- The loop body of `load_tasks` on a buffer whose stripped line is three non-empty
fields separated by two commas. -/
theorem load_line_fields (list : TaskList) (raw idf titlef donef : List Char) (c : Nat)
    (hc : ensure_cap list (list.size + 1) = some { list with cap := c })
    (hform : rstrip_newline (cstr raw) = idf ++ ',' :: (titlef ++ ',' :: donef))
    (h1 : idf ≠ []) (h1c : ',' ∉ idf) (h2 : titlef ≠ []) (h2c : ',' ∉ titlef)
    (h3 : donef ≠ []) (h3c : ',' ∉ donef) :
    load_line list raw = some
      { data := Function.update list.data list.size
          { id := parse_int idf
            title := titlef.take 127
            done := if parse_int donef ≠ 0 then 1 else 0 }
        size := list.size + 1
        cap := c } := by
  have htok1 := (strtok_token idf (titlef ++ ',' :: donef) h1 h1c).1
  have htok2 := (strtok_token titlef donef h2 h2c).1
  have htok3 := (strtok_token donef [] h3 h3c).2
  have hnonempty : idf ++ ',' :: (titlef ++ ',' :: donef) ≠ [] := by simp
  have htm : TITLE_MAX - 1 = 127 := rfl
  simp only [load_line, hform, if_neg hnonempty, htok1, htok2, htok3, hc, htm]

/-! ## Titles in the store -/

/-- When `add_task` returns, the store is as before or one task with a good title was
appended. -/
theorem add_task_some (list l2 : TaskList) (con c2 : Console)
    (h : add_task list con = some (l2, c2)) :
    l2.tasks = list.tasks ∨
      ∃ t, l2.tasks = list.tasks ++ [t] ∧ t.title ≠ [] ∧ t.title.length ≤ 127 ∧
        ',' ∉ t.title := by
  cases hread : fgets TITLE_MAX (con.printf "Enter task title: ".toList).stdin with
  | none =>
    simp only [add_task, hread, Option.some.injEq, Prod.mk.injEq] at h
    left
    rw [← h.1]
  | some r =>
    obtain ⟨raw, rest⟩ := r
    by_cases hbuf : rstrip_newline (cstr raw) = []
    · simp only [add_task, hread, hbuf, if_true, Option.some.injEq, Prod.mk.injEq] at h
      left
      rw [← h.1]
    · cases hc : ensure_cap list (list.size + 1) with
      | none =>
        have h2 : add_task list con = none := by
          simp only [add_task, hread, hbuf, if_false, hc]
        rw [h2] at h
        cases h
      | some l =>
        simp only [add_task, hread, hbuf, if_false, hc, Option.some.injEq,
          Prod.mk.injEq] at h
        obtain ⟨hd, hs⟩ := ensure_cap_keeps list l _ hc
        right
        refine ⟨{ id := next_id { data := l.data, size := l.size + 1, cap := l.cap }
                  title := (sanitize_title (rstrip_newline (cstr raw))).take (TITLE_MAX - 1)
                  done := 0 }, ?_, ?_, ?_, ?_⟩
        · rw [← h.1, hd, hs]
          exact tasks_push list.data list.size l.cap _
        · show (sanitize_title (rstrip_newline (cstr raw))).take (TITLE_MAX - 1) ≠ []
          intro e
          rcases List.take_eq_nil_iff.mp e with h0 | h0
          · revert h0
            decide
          · simp only [sanitize_title, List.map_eq_nil_iff] at h0
            exact hbuf h0
        · exact List.length_take_le _ _
        · show ',' ∉ (sanitize_title (rstrip_newline (cstr raw))).take (TITLE_MAX - 1)
          intro hm
          have hm2 := (List.take_sublist _ _).mem hm
          simp only [sanitize_title, List.mem_map] at hm2
          obtain ⟨x, _, hx⟩ := hm2
          split at hx
          · revert hx
            decide
          · rename_i hxc
            exact hxc hx

/-- Every task `mark_done` leaves in the store has the title of a task that was there. -/
theorem mark_done_titles (list : TaskList) (con : Console) :
    ∀ t2 ∈ (mark_done list con).1.tasks, ∃ t ∈ list.tasks, t2.title = t.title := by
  intro t2 ht2
  cases hread : fgets 32 (con.printf "Enter task ID to mark done: ".toList).stdin with
  | none =>
    simp only [mark_done, hread] at ht2
    exact ⟨t2, ht2, rfl⟩
  | some r =>
    obtain ⟨raw, rest⟩ := r
    cases hfind : find_by_id list (parse_int (cstr raw)) with
    | none =>
      simp only [mark_done, hread, hfind] at ht2
      exact ⟨t2, ht2, rfl⟩
    | some i =>
      simp only [mark_done, hread, hfind, TaskList.tasks, List.mem_map, List.mem_range] at ht2
      obtain ⟨k, hk, rfl⟩ := ht2
      refine ⟨list.data k, List.mem_map.mpr ⟨k, List.mem_range.mpr hk, rfl⟩, ?_⟩
      by_cases hki : k = i
      · subst hki
        simp
      · rw [Function.update_noteq hki]

/-- Every task `delete_task` leaves in the store was there. -/
theorem delete_task_subset (list : TaskList) (con : Console) :
    ∀ t ∈ (delete_task list con).1.tasks, t ∈ list.tasks := by
  intro t ht
  cases hread : fgets 32 con.stdin with
  | none =>
    have hread2 : fgets 32 (con.printf "Enter task ID to delete: ".toList).stdin = none := hread
    simp only [delete_task, hread2] at ht
    exact ht
  | some r =>
    obtain ⟨raw, rest⟩ := r
    by_cases hmem : parse_int (cstr raw) ∈ list.tasks.map Task.id
    · rw [delete_task_tasks list con raw rest _ hread rfl hmem] at ht
      exact List.mem_of_mem_eraseP ht
    · rw [(absent_id_run list con raw rest _ hread rfl hmem).2] at ht
      exact ht

/-! ## Unique positive ids -/

theorem mark_done_ids (list : TaskList) (con : Console) :
    (mark_done list con).1.tasks.map Task.id = list.tasks.map Task.id := by
  cases hread : fgets 32 (con.printf "Enter task ID to mark done: ".toList).stdin with
  | none => simp only [mark_done, hread]
  | some r =>
    obtain ⟨raw, rest⟩ := r
    cases hfind : find_by_id list (parse_int (cstr raw)) with
    | none => simp only [mark_done, hread, hfind]
    | some i =>
      simp only [mark_done, hread, hfind, TaskList.tasks, List.map_map]
      apply List.map_congr_left
      intro k _
      by_cases hki : k = i
      · subst hki
        simp
      · simp [Function.update_noteq hki]

/-- The calls `mark_done` and `delete_task` keep the ids unique and positive. -/
theorem ids_kept_by_mark_and_delete (list : TaskList) (con : Console)
    (hu : (list.tasks.map Task.id).Nodup) (hp : ∀ x ∈ list.tasks.map Task.id, 0 < x) :
    ((mark_done list con).1.tasks.map Task.id).Nodup ∧
    (∀ x ∈ (mark_done list con).1.tasks.map Task.id, 0 < x) ∧
    ((delete_task list con).1.tasks.map Task.id).Nodup ∧
    (∀ x ∈ (delete_task list con).1.tasks.map Task.id, 0 < x) := by
  rw [mark_done_ids]
  refine ⟨hu, hp, ?_, ?_⟩
  · cases hread : fgets 32 con.stdin with
    | none =>
      have hread2 : fgets 32 (con.printf "Enter task ID to delete: ".toList).stdin = none :=
        hread
      simp only [delete_task, hread2]
      exact hu
    | some r =>
      obtain ⟨raw, rest⟩ := r
      by_cases hmem : parse_int (cstr raw) ∈ list.tasks.map Task.id
      · rw [delete_task_tasks list con raw rest _ hread rfl hmem]
        exact ((List.eraseP_sublist _).map Task.id).nodup hu
      · rw [(absent_id_run list con raw rest _ hread rfl hmem).2]
        exact hu
  · intro x hx
    obtain ⟨t, ht, rfl⟩ := List.mem_map.mp hx
    exact hp _ (List.mem_map.mpr ⟨t, delete_task_subset list con t ht, rfl⟩)

/-- The call `add_task` keeps the ids unique and positive as long as `next_id` does not
overflow: the ids of the store and the id left in the slot of the new task are below the
largest `int`. -/
theorem ids_kept_by_add (list : TaskList) (con : Console) (raw rest : List Char)
    (hcap : 0 < list.cap) (hread : fgets TITLE_MAX con.stdin = some (raw, rest))
    (hne : rstrip_newline (cstr raw) ≠ [])
    (hu : (list.tasks.map Task.id).Nodup) (hp : ∀ x ∈ list.tasks.map Task.id, 0 < x)
    (hmax : ∀ x ∈ list.tasks.map Task.id, x < 2147483647)
    (hslot : (list.data list.size).id < 2147483647) :
    ∃ l2 c2, add_task list con = some (l2, c2) ∧ (l2.tasks.map Task.id).Nodup ∧
      ∀ x ∈ l2.tasks.map Task.id, 0 < x := by
  obtain ⟨c, _, hrun⟩ := add_task_accepted list con raw rest hcap hread hne
  refine ⟨_, _, hrun, ?_, ?_⟩
  all_goals rw [tasks_push]
  all_goals
    have e : TaskList.tasks { data := list.data, size := list.size, cap := c } = list.tasks :=
      rfl
    rw [e, List.map_append, List.map_cons, List.map_nil]
    have hge : ∀ x ∈ list.tasks.map Task.id,
        x ≤ max_id (list.tasks.map Task.id ++ [(list.data list.size).id]) :=
      fun x hx => max_fold_ge_mem _ 0 x (List.mem_append_left _ hx)
    have h0 : 0 ≤ max_id (list.tasks.map Task.id ++ [(list.data list.size).id]) :=
      max_fold_ge_init _ 0
    have hlt : max_id (list.tasks.map Task.id ++ [(list.data list.size).id]) < 2147483647 := by
      rcases max_fold_mem_or_init (list.tasks.map Task.id ++ [(list.data list.size).id]) 0
        with h | h
      · have h2 : max_id (list.tasks.map Task.id ++ [(list.data list.size).id]) = 0 := h
        omega
      · have h2 : max_id (list.tasks.map Task.id ++ [(list.data list.size).id])
            ∈ list.tasks.map Task.id ++ [(list.data list.size).id] := h
        rcases List.mem_append.mp h2 with h3 | h3
        · exact hmax _ h3
        · rw [List.mem_singleton.mp h3]
          exact hslot
    have hw := wrap_int_of_range
      (max_id (list.tasks.map Task.id ++ [(list.data list.size).id]) + 1)
      (by omega) (by omega)
  · rw [List.nodup_append]
    refine ⟨hu, List.nodup_singleton _, ?_⟩
    intro x hx hx2
    have hx3 := List.mem_singleton.mp hx2
    have := hge x hx
    simp only at hx3
    omega
  · intro x hx
    rcases List.mem_append.mp hx with h | h
    · exact hp x h
    · have hx3 := List.mem_singleton.mp h
      simp only at hx3
      omega

/-! ## Claims -/

/-- C1. For every store whose tasks are valid (title a C string that is not empty, of at
most 127 characters, without comma or newline; done 0 or 1; id any 32-bit integer),
`save_tasks` writes a text from which `load_tasks`, run on a fresh empty store, returns
a store with exactly the same sequence of tasks (id, title, done) in the same order. -/
theorem load_save_round_trip (list : TaskList) (mem : Nat → Task)
    (hvalid : ∀ t ∈ list.tasks, valid_task t) :
    ∃ text list2, save_tasks list true = .ok text ∧
      load_tasks (init_list mem) (some text) = some list2 ∧
      list2.tasks = list.tasks := by
  obtain ⟨list2, hrun, htasks, _⟩ := load_loop_saved list.tasks hvalid (init_list mem)
    (by show 0 < 8; decide) ((list.tasks.foldl (fun out t => out ++ save_line t) []).length + 1)
    (by omega)
  refine ⟨_, list2, save_tasks_text list, hrun, ?_⟩
  rw [htasks]
  simp [TaskList.tasks, init_list]

/-- C1, at the store with the tasks (1, `a`, not done) and (-5, `b c;d`, done). -/
theorem load_save_round_trip_witness :
    (∀ t ∈ (store_of [todo 1 "a", { id := -5, title := "b c;d".toList, done := 1 }]).tasks,
      valid_task t) ∧
    ∃ text list2,
      save_tasks (store_of [todo 1 "a", { id := -5, title := "b c;d".toList, done := 1 }]) true
        = .ok text ∧
      load_tasks (init_list junk_mem) (some text) = some list2 ∧
      list2.tasks
        = (store_of [todo 1 "a", { id := -5, title := "b c;d".toList, done := 1 }]).tasks :=
  ⟨by decide,
    load_save_round_trip
      (store_of [todo 1 "a", { id := -5, title := "b c;d".toList, done := 1 }]) junk_mem
      (by decide)⟩

/-- C2 fails on the code.  `add_task` counts the slot of the new task before it asks
`next_id` for the id, so `next_id` also reads the id left in that slot.  Starting from
zero-filled memory: after adding a task (id 1) and deleting it the store is empty, and
the next task added gets the id 2, not 1; with ids 1, 2, 3, after deleting id 3 the
largest id in the store is 2, and the next task added gets the id 4, not 3. -/
theorem add_task_reads_stale_slot :
    ((add_task (init_list zero_mem) (console_of "a\n")).map
      (fun r => (delete_task r.1 (console_of "1\n")).1.tasks)) = some [] ∧
    ((add_task (init_list zero_mem) (console_of "a\n")).bind
      (fun r => add_task (delete_task r.1 (console_of "1\n")).1 (console_of "b\n"))).map
      (fun r => r.1.tasks) = some [todo 2 "b"] ∧
    (delete_task (store_of [todo 1 "a", todo 2 "b", todo 3 "c"]) (console_of "3\n")).1.tasks
      = [todo 1 "a", todo 2 "b"] ∧
    (add_task (delete_task (store_of [todo 1 "a", todo 2 "b", todo 3 "c"])
        (console_of "3\n")).1 (console_of "d\n")).map (fun r => r.1.tasks)
      = some [todo 1 "a", todo 2 "b", todo 4 "d"] := by
  decide

/-- C3 fails on the code.  The block `init_list` gets from `malloc` is not initialised,
and `add_task` lets `next_id` read the id in the slot of the new task before writing it:
when the first slot of the block reads as id 41, the first task added to the fresh store
gets the id 42, not 1. -/
theorem first_id_depends_on_malloc :
    (init_list junk_mem).tasks = [] ∧
    (add_task (init_list junk_mem) (console_of "a\n")).map (fun r => r.1.tasks)
      = some [todo 42 "a"] := by
  decide

/-- C5. For every store and every id present in it, `delete_task` (reading that id from
the terminal) yields the former sequence of tasks with exactly the first task carrying
that id removed: the size drops by one, every other task is kept as it was and in the
same order, and the deletion is reported. -/
theorem delete_task_removes_first (list : TaskList) (con : Console) (raw rest : List Char)
    (id : Int) (hread : fgets 32 con.stdin = some (raw, rest))
    (hid : parse_int (cstr raw) = id) (hmem : id ∈ list.tasks.map Task.id) :
    (delete_task list con).1.tasks = list.tasks.eraseP (fun t => t.id == id) ∧
    (delete_task list con).1.size + 1 = list.size ∧
    (delete_task list con).1.tasks.length + 1 = list.tasks.length ∧
    (delete_task list con).2 =
      { stdin := rest
        stdout := con.stdout ++ "Enter task ID to delete: ".toList ++
          ("Deleted task #".toList ++ fmt_d id ++ ".\n".toList) } := by
  obtain ⟨i, hi, _, _, hrun⟩ := delete_task_found list con raw rest id hread hid hmem
  have htasks := delete_task_tasks list con raw rest id hread hid hmem
  refine ⟨htasks, ?_, ?_, ?_⟩
  · rw [hrun]
    show list.size - 1 + 1 = list.size
    omega
  · rw [hrun]
    simp only [TaskList.tasks, List.length_map, List.length_range]
    omega
  · rw [hrun]

/-- C5, at the store with ids 1, 2, 3, 4 and the input line `2`: ids 1, 3, 4 remain. -/
theorem delete_task_removes_first_witness :
    fgets 32 (console_of "2\n").stdin = some ("2\n".toList, []) ∧
    parse_int (cstr "2\n".toList) = 2 ∧
    (2 : Int) ∈ (store_of [todo 1 "a", todo 2 "b", todo 3 "c", todo 4 "d"]).tasks.map Task.id ∧
    (delete_task (store_of [todo 1 "a", todo 2 "b", todo 3 "c", todo 4 "d"])
        (console_of "2\n")).1.tasks
      = [todo 1 "a", todo 3 "c", todo 4 "d"] := by
  refine ⟨by decide, by decide, by decide, ?_⟩
  rw [(delete_task_removes_first (store_of [todo 1 "a", todo 2 "b", todo 3 "c", todo 4 "d"])
    (console_of "2\n") "2\n".toList [] 2 (by decide) (by decide) (by decide)).1]
  decide

/-- C6. For every store and every id that no task of the store carries, `mark_done` and
`delete_task` (reading that id from the terminal) both report that there is no task with
that id and return the store exactly as it was. -/
theorem not_found_leaves_store_unchanged (list : TaskList) (con : Console)
    (raw rest : List Char) (id : Int) (hread : fgets 32 con.stdin = some (raw, rest))
    (hid : parse_int (cstr raw) = id) (habs : id ∉ list.tasks.map Task.id) :
    mark_done list con =
      (list, { stdin := rest
               stdout := con.stdout ++ "Enter task ID to mark done: ".toList ++
                 ("No task with ID ".toList ++ fmt_d id ++ ".\n".toList) }) ∧
    delete_task list con =
      (list, { stdin := rest
               stdout := con.stdout ++ "Enter task ID to delete: ".toList ++
                 ("No task with ID ".toList ++ fmt_d id ++ ".\n".toList) }) :=
  absent_id_run list con raw rest id hread hid habs

/-- C6, at the store with ids 1, 2, 3 and the input line `7`. -/
theorem not_found_leaves_store_unchanged_witness :
    fgets 32 (console_of "7\n").stdin = some ("7\n".toList, []) ∧
    parse_int (cstr "7\n".toList) = 7 ∧
    (7 : Int) ∉ (store_of [todo 1 "a", todo 2 "b", todo 3 "c"]).tasks.map Task.id ∧
    mark_done (store_of [todo 1 "a", todo 2 "b", todo 3 "c"]) (console_of "7\n") =
      (store_of [todo 1 "a", todo 2 "b", todo 3 "c"],
       { stdin := []
         stdout := (console_of "7\n").stdout ++ "Enter task ID to mark done: ".toList ++
           ("No task with ID ".toList ++ fmt_d 7 ++ ".\n".toList) }) ∧
    delete_task (store_of [todo 1 "a", todo 2 "b", todo 3 "c"]) (console_of "7\n") =
      (store_of [todo 1 "a", todo 2 "b", todo 3 "c"],
       { stdin := []
         stdout := (console_of "7\n").stdout ++ "Enter task ID to delete: ".toList ++
           ("No task with ID ".toList ++ fmt_d 7 ++ ".\n".toList) }) :=
  ⟨by decide, by decide, by decide,
    not_found_leaves_store_unchanged (store_of [todo 1 "a", todo 2 "b", todo 3 "c"])
      (console_of "7\n") "7\n".toList [] 7 (by decide) (by decide) (by decide)⟩

/-- C7, as the code has it.  When the line read holds no leading decimal integer
(`strtol` converts nothing), or no line can be read, and no task of the store has the
id 0, `mark_done` and `delete_task` return the store unchanged. -/
theorem unparsable_id_leaves_store_unchanged (list : TaskList) (con : Console)
    (hno : ∀ raw rest, fgets 32 con.stdin = some (raw, rest) → (strtol (cstr raw)).2 = 0)
    (hzero : (0 : Int) ∉ list.tasks.map Task.id) :
    (mark_done list con).1 = list ∧ (delete_task list con).1 = list := by
  cases hread : fgets 32 con.stdin with
  | none =>
    constructor
    · simp only [mark_done, Console.printf, hread]
    · simp only [delete_task, Console.printf, hread]
  | some r =>
    obtain ⟨raw, rest⟩ := r
    have hid := parse_int_of_no_conversion _ (hno raw rest hread)
    have h := absent_id_run list con raw rest 0 hread hid hzero
    rw [h.1, h.2]
    exact ⟨rfl, rfl⟩

/-- C7, as the code has it, at the store with ids 1, 2 and the input line `abc`. -/
theorem unparsable_id_leaves_store_unchanged_witness :
    (∀ raw rest, fgets 32 (console_of "abc\n").stdin = some (raw, rest) →
      (strtol (cstr raw)).2 = 0) ∧
    (0 : Int) ∉ (store_of [todo 1 "a", todo 2 "b"]).tasks.map Task.id ∧
    (mark_done (store_of [todo 1 "a", todo 2 "b"]) (console_of "abc\n")).1
      = store_of [todo 1 "a", todo 2 "b"] ∧
    (delete_task (store_of [todo 1 "a", todo 2 "b"]) (console_of "abc\n")).1
      = store_of [todo 1 "a", todo 2 "b"] := by
  have hno : ∀ raw rest, fgets 32 (console_of "abc\n").stdin = some (raw, rest) →
      (strtol (cstr raw)).2 = 0 := by
    intro raw rest h
    have h2 : fgets 32 (console_of "abc\n").stdin = some ("abc\n".toList, []) := by decide
    rw [h2] at h
    simp only [Option.some.injEq, Prod.mk.injEq] at h
    rw [← h.1]
    decide
  exact ⟨hno, by decide,
    unparsable_id_leaves_store_unchanged (store_of [todo 1 "a", todo 2 "b"])
      (console_of "abc\n") hno (by decide)⟩

/-- C7 fails as stated: the file line `0,x,0` loads as a task with id 0, and on that store
the input line `abc`, in which `strtol` finds no integer, makes `mark_done` set the done
flag of that task and makes `delete_task` remove it. -/
theorem unparsable_id_hits_task_zero :
    (strtol (cstr "abc\n".toList)).2 = 0 ∧
    (load_tasks (init_list zero_mem) (some "0,x,0\n".toList)).map TaskList.tasks
      = some [todo 0 "x"] ∧
    (load_tasks (init_list zero_mem) (some "0,x,0\n".toList)).map
      (fun l => (mark_done l (console_of "abc\n")).1.tasks)
      = some [{ id := 0, title := ['x'], done := 1 }] ∧
    (load_tasks (init_list zero_mem) (some "0,x,0\n".toList)).map
      (fun l => (delete_task l (console_of "abc\n")).1.tasks) = some [] := by
  decide

/-- C8, as the code has it.  `add_task` reports `Title cannot be empty.` and returns the
store unchanged for every input line that is empty once its trailing `\n` and `\r`
characters are removed. -/
theorem add_task_rejects_empty_title (list : TaskList) (con : Console)
    (raw rest : List Char) (hread : fgets TITLE_MAX con.stdin = some (raw, rest))
    (hempty : rstrip_newline (cstr raw) = []) :
    add_task list con = some
      (list, { stdin := rest
               stdout := con.stdout ++ "Enter task title: ".toList ++
                 "Title cannot be empty.\n".toList }) := by
  simp only [add_task, Console.printf, hread, hempty, if_true]

/-- C8, as the code has it, at the input line made of `\r\n` only. -/
theorem add_task_rejects_empty_title_witness :
    fgets TITLE_MAX (console_of "\r\n").stdin = some ("\r\n".toList, []) ∧
    rstrip_newline (cstr "\r\n".toList) = [] ∧
    add_task (store_of [todo 1 "a"]) (console_of "\r\n") = some
      (store_of [todo 1 "a"],
       { stdin := []
         stdout := (console_of "\r\n").stdout ++ "Enter task title: ".toList ++
           "Title cannot be empty.\n".toList }) :=
  ⟨by decide, by decide,
    add_task_rejects_empty_title (store_of [todo 1 "a"]) (console_of "\r\n") "\r\n".toList []
      (by decide) (by decide)⟩

/-- C8 fails as stated: the title made of two spaces and a tab is empty once trailing
white space is trimmed, yet `add_task` stores it as the title of a new task. -/
theorem add_task_accepts_blank_title :
    ("  \t\n".toList.reverse.dropWhile isspace).reverse = [] ∧
    (add_task (init_list zero_mem) (console_of "  \t\n")).map (fun r => r.1.tasks)
      = some [todo 1 "  \t"] := by
  decide

/-- C9. For every store (of positive capacity, as every store made by `init_list` is) and
every accepted title, `add_task` appends exactly one task at the end and leaves the tasks
stored before as they were and in the same order.  The title of the new task is the line
read by `fgets` (at most 127 characters of the input) without its trailing `\r` and `\n`,
with every comma replaced by a semicolon and every other character unchanged; its done
flag is 0. -/
theorem add_task_appends (list : TaskList) (con : Console) (raw rest : List Char)
    (hcap : 0 < list.cap) (hread : fgets TITLE_MAX con.stdin = some (raw, rest))
    (hne : rstrip_newline (cstr raw) ≠ []) :
    ∃ list2 con2 t, add_task list con = some (list2, con2) ∧
      list2.tasks = list.tasks ++ [t] ∧
      t.title = (rstrip_newline (cstr raw)).map (fun c => if c = ',' then ';' else c) ∧
      t.title.length ≤ 127 ∧ ',' ∉ t.title ∧ t.done = 0 ∧
      raw ++ rest = con.stdin ∧ raw.length ≤ 127 ∧ con2.stdin = rest := by
  obtain ⟨c, _, hrun⟩ := add_task_accepted list con raw rest hcap hread hne
  have hraw := fgets_some _ _ _ _ hread
  have hraw2 : raw.length ≤ 127 := hraw.2
  refine ⟨_, _, _, hrun, tasks_push list.data list.size c _, rfl, ?_, ?_, rfl, hraw.1, hraw2, rfl⟩
  · have h2 := cstr_length raw
    have h3 := rstrip_newline_length (cstr raw)
    simp only [sanitize_title, List.length_map]
    omega
  · simp only [sanitize_title, List.mem_map, not_exists, not_and]
    intro x _ hx
    split at hx
    · simp at hx
    · rename_i hxc
      exact hxc hx

/-- C9, at the store with the task 1 and the input line `buy milk, eggs`. -/
theorem add_task_appends_witness :
    0 < (store_of [todo 1 "a"]).cap ∧
    fgets TITLE_MAX (console_of "buy milk, eggs\r\n").stdin
      = some ("buy milk, eggs\r\n".toList, []) ∧
    rstrip_newline (cstr "buy milk, eggs\r\n".toList) ≠ [] ∧
    ∃ list2 con2 t,
      add_task (store_of [todo 1 "a"]) (console_of "buy milk, eggs\r\n") = some (list2, con2) ∧
      list2.tasks = (store_of [todo 1 "a"]).tasks ++ [t] ∧
      t.title = (rstrip_newline (cstr "buy milk, eggs\r\n".toList)).map
        (fun c => if c = ',' then ';' else c) ∧
      t.title.length ≤ 127 ∧ ',' ∉ t.title ∧ t.done = 0 ∧
      "buy milk, eggs\r\n".toList ++ [] = (console_of "buy milk, eggs\r\n").stdin ∧
      "buy milk, eggs\r\n".toList.length ≤ 127 ∧ con2.stdin = [] :=
  ⟨by decide, by decide, by decide,
    add_task_appends (store_of [todo 1 "a"]) (console_of "buy milk, eggs\r\n")
      "buy milk, eggs\r\n".toList [] (by decide) (by decide) (by decide)⟩

/-- C10. For every store and every id present in it, `mark_done` (reading that id from
the terminal) reports success and sets the done flag of the first task with that id,
changing nothing else; a second `mark_done` with the same id also reports success and
returns the same store as the first. -/
theorem mark_done_idempotent (list : TaskList) (con con2 : Console)
    (raw rest raw2 rest2 : List Char) (id : Int)
    (hread : fgets 32 con.stdin = some (raw, rest)) (hid : parse_int (cstr raw) = id)
    (hread2 : fgets 32 con2.stdin = some (raw2, rest2)) (hid2 : parse_int (cstr raw2) = id)
    (hmem : id ∈ list.tasks.map Task.id) :
    ∃ i, i < list.size ∧ (list.data i).id = id ∧ (∀ j, j < i → (list.data j).id ≠ id) ∧
      mark_done list con =
        ({ list with data := Function.update list.data i { list.data i with done := 1 } },
         { stdin := rest
           stdout := con.stdout ++ "Enter task ID to mark done: ".toList ++
             ("Marked task #".toList ++ fmt_d id ++ " as done.\n".toList) }) ∧
      mark_done (mark_done list con).1 con2 =
        ((mark_done list con).1,
         { stdin := rest2
           stdout := con2.stdout ++ "Enter task ID to mark done: ".toList ++
             ("Marked task #".toList ++ fmt_d id ++ " as done.\n".toList) }) := by
  obtain ⟨i, hfind, hi, hiid, hfirst⟩ := scan_some_of_present list id hmem
  have hrun : mark_done list con =
      ({ list with data := Function.update list.data i { list.data i with done := 1 } },
       { stdin := rest
         stdout := con.stdout ++ "Enter task ID to mark done: ".toList ++
           ("Marked task #".toList ++ fmt_d id ++ " as done.\n".toList) }) := by
    simp only [mark_done, Console.printf, hread, hid, find_by_id, hfind]
  refine ⟨i, hi, hiid, hfirst, hrun, ?_⟩
  rw [hrun]
  have hfind2 : (List.range list.size).find?
      (fun k => (Function.update list.data i { list.data i with done := 1 } k).id == id)
      = some i := by
    rw [find_range_some]
    refine ⟨hi, by simp [hiid], ?_⟩
    intro j hj
    have hji : j ≠ i := by omega
    simpa [Function.update_noteq hji] using hfirst j hj
  simp only [mark_done, Console.printf, hread2, hid2, find_by_id, hfind2,
    Function.update_same, Function.update_idem]

/-- C10, at the store with ids 1, 2, 3 and the input line `2`, twice. -/
theorem mark_done_idempotent_witness :
    fgets 32 (console_of "2\n").stdin = some ("2\n".toList, []) ∧
    parse_int (cstr "2\n".toList) = 2 ∧
    (2 : Int) ∈ (store_of [todo 1 "a", todo 2 "b", todo 3 "c"]).tasks.map Task.id ∧
    (mark_done (mark_done (store_of [todo 1 "a", todo 2 "b", todo 3 "c"])
        (console_of "2\n")).1 (console_of "2\n")).1.tasks
      = [todo 1 "a", { id := 2, title := ['b'], done := 1 }, todo 3 "c"] := by
  refine ⟨by decide, by decide, by decide, ?_⟩
  obtain ⟨i, _, _, _, _, h2⟩ :=
    mark_done_idempotent (store_of [todo 1 "a", todo 2 "b", todo 3 "c"]) (console_of "2\n")
      (console_of "2\n") "2\n".toList [] "2\n".toList [] 2 (by decide) (by decide)
      (by decide) (by decide) (by decide)
  rw [h2]
  decide

/-- C11. For every content of the file, `load_tasks` (on a store of positive capacity)
returns, and the store it returns is the one it returns for the same content without its
blank lines and its lines with fewer than three comma-separated fields: such lines are
skipped and the lines next to them are read as if they were not there. -/
theorem load_tasks_skips_short_lines (list : TaskList) (content : List Char)
    (hcap : 0 < list.cap) :
    (∃ list2, load_tasks list (some content) = some list2) ∧
    load_tasks list (some (drop_short_lines content)) = load_tasks list (some content) := by
  constructor
  · obtain ⟨l2, h, _⟩ := load_loop_total (content.length + 1) list content hcap (by omega)
    exact ⟨l2, h⟩
  · have h := load_drop_short_lines (split_lines content).1 (split_lines content).2 list
    rw [split_lines_spec] at h
    exact h

/-- C11, at a file with a blank line and a line of two fields between two full lines. -/
theorem load_tasks_skips_short_lines_witness :
    0 < (init_list zero_mem).cap ∧
    drop_short_lines "1,a,0\n\n7,x\n2,b,1\n".toList = "1,a,0\n2,b,1\n".toList ∧
    (load_tasks (init_list zero_mem) (some "1,a,0\n2,b,1\n".toList)).map TaskList.tasks
      = some [todo 1 "a", { id := 2, title := ['b'], done := 1 }] ∧
    (∃ list2, load_tasks (init_list zero_mem) (some "1,a,0\n\n7,x\n2,b,1\n".toList)
      = some list2) ∧
    load_tasks (init_list zero_mem) (some (drop_short_lines "1,a,0\n\n7,x\n2,b,1\n".toList))
      = load_tasks (init_list zero_mem) (some "1,a,0\n\n7,x\n2,b,1\n".toList) :=
  ⟨by decide, by decide, by decide,
    load_tasks_skips_short_lines (init_list zero_mem) "1,a,0\n\n7,x\n2,b,1\n".toList
      (by decide)⟩

/-- C12, as the code has it.  Take a line of text (no NUL) that fits the line buffer of
`load_tasks` (at most 382 characters, so 383 with its newline) and that, without the
carriage returns that may end it, has the form id,title,done with three non-empty fields.
When the loop of `load_tasks` reaches it with the store `list` (of positive capacity),
exactly one task is appended, whether the line ends with a newline or ends the file:
its id is the saturating parse of the id field, its title the title field cut to its
first 127 characters, and its done flag is 1 exactly when the parse of the done field is
not 0. -/
theorem load_tasks_reads_line (list : TaskList) (line post idf titlef donef : List Char)
    (hcap : 0 < list.cap) (hnl : '\n' ∉ line) (hnul : '\x00' ∉ line)
    (hlen : line.length ≤ 382)
    (hform : rstrip_newline line = idf ++ ',' :: (titlef ++ ',' :: donef))
    (h1 : idf ≠ []) (h1c : ',' ∉ idf) (h2 : titlef ≠ []) (h2c : ',' ∉ titlef)
    (h3 : donef ≠ []) (h3c : ',' ∉ donef) :
    ∃ c, list.cap ≤ c ∧
      load_tasks list (some (line ++ '\n' :: post)) =
        load_tasks
          { data := Function.update list.data list.size
              { id := parse_int idf
                title := titlef.take 127
                done := if parse_int donef ≠ 0 then 1 else 0 }
            size := list.size + 1
            cap := c } (some post) ∧
      load_tasks list (some line) = some
          { data := Function.update list.data list.size
              { id := parse_int idf
                title := titlef.take 127
                done := if parse_int donef ≠ 0 then 1 else 0 }
            size := list.size + 1
            cap := c } := by
  have hnul2 : '\x00' ∉ line ++ ['\n'] := by
    simp only [List.mem_append, List.mem_singleton, not_or]
    exact ⟨hnul, by decide⟩
  have hform1 : rstrip_newline (cstr (line ++ ['\n']))
      = idf ++ ',' :: (titlef ++ ',' :: donef) := by
    rw [cstr_of_no_nul _ hnul2, rstrip_newline_append_nl, hform]
  have hform2 : rstrip_newline (cstr line) = idf ++ ',' :: (titlef ++ ',' :: donef) := by
    rw [cstr_of_no_nul _ hnul, hform]
  obtain ⟨c, hc, hle, _⟩ := ensure_cap_some list (list.size + 1) hcap
  have hline1 := load_line_fields list (line ++ ['\n']) idf titlef donef c hc
    hform1 h1 h1c h2 h2c h3 h3c
  have hline2 := load_line_fields list line idf titlef donef c hc
    hform2 h1 h1c h2 h2c h3 h3c
  have hne : line ≠ [] := by
    intro e
    rw [e] at hform
    have : rstrip_newline [] = ([] : List Char) := rfl
    rw [this] at hform
    exact absurd hform.symm (by simp)
  have hread1 : fgets (256 + TITLE_MAX) (line ++ '\n' :: post) = some (line ++ ['\n'], post) := by
    unfold fgets
    rw [if_neg (by simp), fgets_read_line _ _ _ hnl (by show line.length < 383; omega)]
  have hread2 : fgets (256 + TITLE_MAX) line = some (line, []) := by
    unfold fgets
    rw [if_neg hne, fgets_read_all _ _ hnl (by show line.length ≤ 383; omega)]
  refine ⟨c, hle, ?_, ?_⟩
  · have e1 : load_tasks list (some (line ++ '\n' :: post))
        = load_loop (line ++ '\n' :: post).length
            { data := Function.update list.data list.size
                { id := parse_int idf
                  title := titlef.take 127
                  done := if parse_int donef ≠ 0 then 1 else 0 }
              size := list.size + 1
              cap := c } post := by
      simp only [load_tasks, load_loop, hread1, hline1]
    rw [e1]
    exact load_loop_fuel (line ++ '\n' :: post).length (post.length + 1) _ post
      (by simp only [List.length_append, List.length_cons]; omega) (by omega)
  · obtain ⟨k, hk⟩ : ∃ k, line.length = k + 1 :=
      ⟨line.length - 1, by have := List.length_pos.mpr hne; omega⟩
    simp only [load_tasks, load_loop, hread2, hline2, hk]
    simp [fgets]

/-- C12, as the code has it, at the line `7,buy milk,1` ended by a carriage return. -/
theorem load_tasks_reads_line_witness :
    0 < (init_list zero_mem).cap ∧ '\n' ∉ "7,buy milk,1\r".toList ∧
    '\x00' ∉ "7,buy milk,1\r".toList ∧ "7,buy milk,1\r".toList.length ≤ 382 ∧
    rstrip_newline "7,buy milk,1\r".toList
      = "7".toList ++ ',' :: ("buy milk".toList ++ ',' :: "1".toList) ∧
    "7".toList ≠ [] ∧ ',' ∉ "7".toList ∧ "buy milk".toList ≠ [] ∧ ',' ∉ "buy milk".toList ∧
    "1".toList ≠ [] ∧ ',' ∉ "1".toList ∧
    ∃ c, (init_list zero_mem).cap ≤ c ∧
      load_tasks (init_list zero_mem) (some ("7,buy milk,1\r".toList ++ '\n' :: [])) =
        load_tasks
          { data := Function.update (init_list zero_mem).data (init_list zero_mem).size
              { id := parse_int "7".toList
                title := "buy milk".toList.take 127
                done := if parse_int "1".toList ≠ 0 then 1 else 0 }
            size := (init_list zero_mem).size + 1
            cap := c } (some []) ∧
      load_tasks (init_list zero_mem) (some "7,buy milk,1\r".toList) = some
          { data := Function.update (init_list zero_mem).data (init_list zero_mem).size
              { id := parse_int "7".toList
                title := "buy milk".toList.take 127
                done := if parse_int "1".toList ≠ 0 then 1 else 0 }
            size := (init_list zero_mem).size + 1
            cap := c } :=
  ⟨by decide, by decide, by decide, by decide, by decide, by decide, by decide, by decide,
    by decide, by decide, by decide,
    load_tasks_reads_line (init_list zero_mem) "7,buy milk,1\r".toList [] "7".toList
      "buy milk".toList "1".toList (by decide) (by decide) (by decide) (by decide)
      (by decide) (by decide) (by decide) (by decide) (by decide) (by decide) (by decide)⟩

set_option maxRecDepth 100000 in
/-- C12 fails as stated: the line `long_line` has three non-empty fields, but it does not
fit the line buffer of `load_tasks`; `fgets` hands it over in two parts, each with two
fields only, and no task is loaded (the claim has one task, with 127 times `a` as
title). -/
theorem load_tasks_splits_long_line :
    long_line.length = 404 ∧ pieces long_line = ["1".toList, List.replicate 400 'a', "1".toList] ∧
    (load_tasks (init_list zero_mem) (some (long_line ++ ['\n']))).map TaskList.tasks
      = some [] := by
  decide

/-- C13. For every string `parse_int` returns the saturating parse of the specification:
0 when no decimal integer leads the string (after optional white space and sign), and
otherwise the value of the longest leading run of digits, of any length, with its sign,
clamped to the range from -2147483648 to 2147483647. -/
theorem parse_int_saturating (s : List Char) : parse_int s = saturating_parse_spec s := by
  unfold parse_int strtol saturating_parse_spec
  cases hb : s.dropWhile isspace with
  | nil => simp
  | cons c r =>
    by_cases hm : c = '-'
    · subst hm
      by_cases hd : r.takeWhile isdigit = []
      · simp [hd]
      · have hlen : ¬ (s.length - r.length + (r.takeWhile isdigit).length = 0) := by
          have : 0 < (r.takeWhile isdigit).length := List.length_pos.mpr hd
          omega
        simp only [List.head?_cons, beq_self_eq_true, Bool.true_or, if_true, List.drop_one,
          List.tail_cons, hd, if_false, hlen, decimal_value_eq]
        exact clamp_twice _
    · by_cases hp : c = '+'
      · subst hp
        by_cases hd : r.takeWhile isdigit = []
        · simp [hd]
        · have hlen : ¬ (s.length - r.length + (r.takeWhile isdigit).length = 0) := by
            have : 0 < (r.takeWhile isdigit).length := List.length_pos.mpr hd
            omega
          have hne : (some '+' == some '-') = false := by decide
          simp only [List.head?_cons, hne, beq_self_eq_true, Bool.false_or, if_true,
            List.drop_one, List.tail_cons, hd, if_false, hlen, decimal_value_eq,
            Bool.false_eq_true]
          exact clamp_twice _
      · have h1 : (some c == some '-') = false := by simpa using hm
        have h2 : (some c == some '+') = false := by simpa using hp
        split
        · rename_i heq
          cases heq
          exact absurd rfl hm
        · rename_i heq
          cases heq
          exact absurd rfl hp
        · by_cases hd : (c :: r).takeWhile isdigit = []
          · simp [h1, h2, hd]
          · have hlen :
                ¬ (s.length - (c :: r).length + ((c :: r).takeWhile isdigit).length = 0) := by
              have : 0 < ((c :: r).takeWhile isdigit).length := List.length_pos.mpr hd
              omega
            simp only [List.head?_cons, h1, h2, Bool.or_self, Bool.false_eq_true, if_false, hd,
              hlen, decimal_value_eq]
            exact clamp_twice _

/-- C14. For every store (done flags 0 or 1, as every write of the program leaves them)
`save_tasks` produces one newline-terminated line per task, in store order, each being
the decimal id, a comma, the title, a comma and the done flag written as 1 or 0; the
text written is the whole new content of the file and is a function of the tasks of the
store alone. -/
theorem save_tasks_format (list : TaskList)
    (hdone : ∀ t ∈ list.tasks, t.done = 0 ∨ t.done = 1) :
    save_tasks list true = .ok
      (list.tasks.map (fun t =>
        fmt_d t.id ++ [','] ++ t.title ++ [','] ++ [if t.done = 1 then '1' else '0'] ++
          ['\n'])).flatten ∧
    ∀ list2 : TaskList, list2.tasks = list.tasks →
      save_tasks list2 true = save_tasks list true := by
  constructor
  · rw [save_tasks_text, save_fold_flatten]
    congr 2
    apply List.map_congr_left
    intro t ht
    rcases hdone t ht with h | h
    · have e : fmt_d 0 = ['0'] := by decide
      simp [save_line, e, h]
    · have e : fmt_d 1 = ['1'] := by decide
      simp [save_line, e, h]
  · intro list2 h
    rw [save_tasks_text, save_tasks_text, h]

/-- C14, at the store with the tasks (1, `a`, not done) and (-5, `b c;d`, done). -/
theorem save_tasks_format_witness :
    (∀ t ∈ (store_of [todo 1 "a", { id := -5, title := "b c;d".toList, done := 1 }]).tasks,
      t.done = 0 ∨ t.done = 1) ∧
    save_tasks (store_of [todo 1 "a", { id := -5, title := "b c;d".toList, done := 1 }]) true
      = .ok "1,a,0\n-5,b c;d,1\n".toList := by
  refine ⟨by decide, ?_⟩
  rw [(save_tasks_format
    (store_of [todo 1 "a", { id := -5, title := "b c;d".toList, done := 1 }])
    (by decide)).1]
  exact congrArg Except.ok (by decide)

/-- C15. For every store and every query line read, `search_tasks` leaves the store as
it is (it only reads it through a `const` pointer) and prints, after the heading, the
rows of exactly the tasks whose title contains the query as a contiguous, case-sensitive
substring, in store order, followed by `No matching tasks.` when there is none (an empty
result, not an error).  Only on an empty query does it print `Search text cannot be
empty.` instead. -/
theorem search_tasks_reports (list : TaskList) (con : Console) (raw rest : List Char)
    (hread : fgets TITLE_MAX con.stdin = some (raw, rest)) :
    search_tasks list con =
      { stdin := rest
        stdout := con.stdout ++ "Enter search text: ".toList ++
          (if rstrip_newline (cstr raw) = [] then "Search text cannot be empty.\n".toList
           else
             "\nResults for '".toList ++ rstrip_newline (cstr raw) ++ "':\n".toList ++
             ((list.tasks.filter
                (fun t => decide (rstrip_newline (cstr raw) <:+: t.title))).map
                  task_row).flatten ++
             (if list.tasks.filter
                  (fun t => decide (rstrip_newline (cstr raw) <:+: t.title)) = []
              then "No matching tasks.\n".toList else [])) } := by
  by_cases hq : rstrip_newline (cstr raw) = []
  · simp only [search_tasks, Console.printf, hread, hq, if_true]
  · have hfold := search_fold (rstrip_newline (cstr raw)) list.tasks
      (Console.printf { Console.printf con "Enter search text: ".toList with stdin := rest }
        ("\nResults for '".toList ++ rstrip_newline (cstr raw) ++ "':\n".toList)) 0
    simp only [TaskList.tasks, List.foldl_map] at hfold
    have hread2 : fgets TITLE_MAX (con.printf "Enter search text: ".toList).stdin
        = some (raw, rest) := hread
    simp only [search_tasks, hread2, hq, if_false]
    rw [hfold]
    by_cases hm : ((List.range list.size).map list.data).filter
        (fun t => decide (rstrip_newline (cstr raw) <:+: t.title)) = []
    · simp [TaskList.tasks, hm, Console.printf, List.append_assoc]
    · simp [TaskList.tasks, hm, Console.printf, List.append_assoc]

/-- C15, at a store with three tasks and the query `il`. -/
theorem search_tasks_reports_witness :
    fgets TITLE_MAX (console_of "il\n").stdin = some ("il\n".toList, []) ∧
    (search_tasks (store_of [todo 1 "milk", todo 2 "Il", todo 3 "oil"])
        (console_of "il\n")).stdout
      = ("Enter search text: \nResults for 'il':\n" ++
         "1    [ ]     milk\n3    [ ]     oil\n").toList := by
  refine ⟨by decide, ?_⟩
  rw [search_tasks_reports (store_of [todo 1 "milk", todo 2 "Il", todo 3 "oil"])
    (console_of "il\n") "il\n".toList [] (by decide)]
  decide

/-- C16. For every store (its size being a `size_t`) `stats` prints as total the number
of tasks, as done the number of tasks whose done flag is not 0, and as pending the
difference total - done, which does not wrap around: done + pending = total. -/
theorem stats_consistent (list : TaskList) (con : Console) (hsize : list.size < SIZE_MOD) :
    (stats_counts list).1 = list.tasks.length ∧
    (stats_counts list).2.1 = list.tasks.countP (fun t => t.done ≠ 0) ∧
    (stats_counts list).2.2 = (stats_counts list).1 - (stats_counts list).2.1 ∧
    (stats_counts list).2.1 + (stats_counts list).2.2 = (stats_counts list).1 ∧
    stats list con =
      { stdin := con.stdin
        stdout := con.stdout ++
          ("Total: ".toList ++ fmt_u list.tasks.length ++
           ", Done: ".toList ++ fmt_u (list.tasks.countP (fun t => t.done ≠ 0)) ++
           ", Pending: ".toList ++
             fmt_u (list.tasks.length - list.tasks.countP (fun t => t.done ≠ 0)) ++
           "\n".toList) } := by
  have hcount := count_done_fold list.data list.size hsize
  have hlen : list.tasks.length = list.size := by simp [TaskList.tasks]
  have hle : list.tasks.countP (fun t => t.done ≠ 0) ≤ list.size := by
    have := List.countP_le_length (fun t : Task => decide (t.done ≠ 0)) (l := list.tasks)
    omega
  have h1 : (stats_counts list).1 = list.tasks.length := by simp [stats_counts, hlen]
  have h2 : (stats_counts list).2.1 = list.tasks.countP (fun t => t.done ≠ 0) := by
    simp only [stats_counts, hcount, TaskList.tasks]
  have h3 : (stats_counts list).2.2
      = list.tasks.length - list.tasks.countP (fun t => t.done ≠ 0) := by
    have e : (stats_counts list).2.2
        = (list.size + SIZE_MOD - (stats_counts list).2.1) % SIZE_MOD := rfl
    rw [e, h2, hlen]
    have e2 : list.size + SIZE_MOD - list.tasks.countP (fun t => t.done ≠ 0)
        = (list.size - list.tasks.countP (fun t => t.done ≠ 0)) + SIZE_MOD := by omega
    rw [e2, Nat.add_mod_right, Nat.mod_eq_of_lt (by omega)]
  refine ⟨h1, h2, by rw [h3, h1, h2], by rw [h3, h1, h2]; omega, ?_⟩
  simp only [stats, Console.printf, h1, h2, h3]

/-- C16, at a store with three tasks, one of them done. -/
theorem stats_consistent_witness :
    (store_of [todo 1 "a", { id := 2, title := ['b'], done := 1 }, todo 3 "c"]).size < SIZE_MOD ∧
    (stats (store_of [todo 1 "a", { id := 2, title := ['b'], done := 1 }, todo 3 "c"])
        (console_of "")).stdout
      = "Total: 3, Done: 1, Pending: 2\n".toList := by
  refine ⟨by decide, ?_⟩
  rw [(stats_consistent
    (store_of [todo 1 "a", { id := 2, title := ['b'], done := 1 }, todo 3 "c"])
    (console_of "") (by decide)).2.2.2.2]
  decide

/-- C17 fails on the code.  The file line `2147483647,x,0` loads as a task with the
largest `int` as id; ids are then unique and positive.  `add_task` on that store computes
`mx + 1` in `next_id`, which overflows: with wrapping arithmetic the new task gets the
id -2147483648, which is not positive. -/
theorem add_task_overflows_id :
    (load_tasks (init_list zero_mem) (some "2147483647,x,0\n".toList)).map
      (fun l => l.tasks.map Task.id) = some [2147483647] ∧
    ((load_tasks (init_list zero_mem) (some "2147483647,x,0\n".toList)).bind
      (fun l => add_task l (console_of "a\n"))).map (fun r => r.1.tasks.map Task.id)
      = some [2147483647, -2147483648] := by
  decide

/-- C18. Every task of a store built from the empty store of `init_list` by any sequence
of `load_tasks`, `add_task`, `mark_done` and `delete_task` calls has a title that is not
empty, has at most 127 characters and holds no comma. -/
theorem reachable_titles (list : TaskList) (h : Reachable list) :
    ∀ t ∈ list.tasks, t.title ≠ [] ∧ t.title.length ≤ 127 ∧ ',' ∉ t.title := by
  induction h with
  | init mem =>
    intro t ht
    simp [TaskList.tasks, init_list] at ht
  | load list list2 file _ hload ih =>
    cases file with
    | none =>
      simp only [load_tasks, Option.some.injEq] at hload
      rw [← hload]
      exact ih
    | some f =>
      obtain ⟨ts, hts, hv⟩ := load_loop_some _ _ _ _ hload
      intro t ht
      rw [hts] at ht
      rcases List.mem_append.mp ht with h1 | h1
      · exact ih t h1
      · obtain ⟨a, b, c, _⟩ := hv t h1
        exact ⟨a, b, c⟩
  | add list list2 con con2 _ hadd ih =>
    rcases add_task_some list list2 con con2 hadd with h1 | ⟨u, h1, hu⟩
    · rw [h1]
      exact ih
    · intro t ht
      rw [h1] at ht
      rcases List.mem_append.mp ht with h2 | h2
      · exact ih t h2
      · rw [List.mem_singleton.mp h2]
        exact hu
  | mark list con _ ih =>
    intro t ht
    obtain ⟨u, hu, e⟩ := mark_done_titles list con t ht
    rw [e]
    exact ih u hu
  | delete list con _ ih =>
    intro t ht
    exact ih t (delete_task_subset list con t ht)

/-- C18, at the store built by loading the file line `5,a,0`, adding the title `b,c` and
marking the task 5 done. -/
theorem reachable_titles_witness :
    Reachable
      (mark_done
        { data := Function.update
            (Function.update zero_mem 0 { id := 5, title := ['a'], done := 0 }) 1
            { id := 6, title := "b;c".toList, done := 0 }
          size := 2
          cap := 8 } (console_of "5\n")).1 ∧
    ∀ t ∈ (mark_done
        { data := Function.update
            (Function.update zero_mem 0 { id := 5, title := ['a'], done := 0 }) 1
            { id := 6, title := "b;c".toList, done := 0 }
          size := 2
          cap := 8 } (console_of "5\n")).1.tasks,
      t.title ≠ [] ∧ t.title.length ≤ 127 ∧ ',' ∉ t.title :=
  have hr : Reachable
      (mark_done
        { data := Function.update
            (Function.update zero_mem 0 { id := 5, title := ['a'], done := 0 }) 1
            { id := 6, title := "b;c".toList, done := 0 }
          size := 2
          cap := 8 } (console_of "5\n")).1 :=
    Reachable.mark _ _
      (Reachable.add
        { data := Function.update zero_mem 0 { id := 5, title := ['a'], done := 0 }
          size := 1
          cap := 8 } _ (console_of "b,c\n")
        { stdin := []
          stdout := "Enter task title: ".toList ++ "Added task #6.\n".toList }
        (Reachable.load (init_list zero_mem) _ (some "5,a,0\n".toList)
          (Reachable.init zero_mem) rfl)
        rfl)
  ⟨hr, reachable_titles _ hr⟩

/-- C19. For every content of the file, however malformed, the store loaded from it
(into a fresh store) is saved as a text that loads (into a fresh store) as exactly the
same sequence of tasks. -/
theorem load_normalises (content : List Char) (mem mem2 : Nat → Task) :
    ∃ list1 text list2,
      load_tasks (init_list mem) (some content) = some list1 ∧
      save_tasks list1 true = .ok text ∧
      load_tasks (init_list mem2) (some text) = some list2 ∧
      list2.tasks = list1.tasks := by
  obtain ⟨list1, hrun, _⟩ := load_loop_total (content.length + 1) (init_list mem) content
    (by show 0 < 8; decide) (by omega)
  obtain ⟨ts, hts, hvalid⟩ := load_loop_some _ _ _ _ hrun
  have hempty : (init_list mem).tasks = [] := rfl
  rw [hempty, List.nil_append] at hts
  obtain ⟨list2, hrun2, htasks2, _⟩ := load_loop_saved list1.tasks
    (by rw [hts]; exact hvalid) (init_list mem2) (by show 0 < 8; decide)
    ((list1.tasks.foldl (fun out t => out ++ save_line t) []).length + 1) (by omega)
  refine ⟨list1, _, list2, hrun, save_tasks_text list1, hrun2, ?_⟩
  rw [htasks2]
  rfl

end Todo
